import Mathlib

/-!
# The animal guessing game database (`Untitled1.c`)

A shallow embedding of the string pool and of the decision tree store of the
program, together with their binary serialisation.

Conventions of the embedding.

* `uint32_t` values are natural numbers; every place where the C code can wrap
  keeps its `% 2 ^ 32`.  `size_t` is 64 bits wide and its arithmetic does not wrap.
* A heap block is a function from offsets to values plus the allocated size
  kept in the owning structure.  Only offsets below the allocated size belong
  to the block.
* Memory that the program has not written holds unspecified values.  They are
  supplied by a `heap` argument: the bytes found in freshly allocated storage
  and the node records found in storage that was never initialised or that
  has been released.
* The growth loop of `pool_push` need not terminate, so it carries a fuel
  argument; `none` means that the fuel ran out, that the code left the
  defined behaviour of C (a store outside the allocated array, an index that
  designates no node) or that a read from the file came up short.
* `malloc` and `realloc` are assumed to succeed.
* The initialisers of a braced initialiser list are evaluated in the order
  they are written.
-/

namespace AnimalDb

/-- Number of values of a `uint32_t`. -/
def U32 : Nat := 2 ^ 32

/-- The enumerator `QUESTION` of `enum type`. -/
def QUESTION : Nat := 0

/-- The enumerator `ANSWER` of `enum type`. -/
def ANSWER : Nat := 1

/-- Record `struct node`. -/
structure node where
  type : Nat
  text : Nat
  yes : Nat
  no : Nat
deriving DecidableEq, Repr

/-- Record `struct pool`: allocated size, bytes used, and the byte block. -/
structure pool where
  size : Nat
  fill : Nat
  buffer : Nat → Nat

/-- Record `struct db`: capacity, number of nodes, node array, string pool. -/
structure db where
  max : Nat
  count : Nat
  nodes : Nat → node
  pool : pool

/-- Unspecified contents of memory the program has not written. -/
structure heap where
  byte : Nat → Nat
  cell : Nat → node

/-- The constant `POOL_INIT`: no storage. -/
def POOL_INIT : pool := ⟨0, 0, fun _ => 0⟩

/-- The constant `DB_INIT`: no storage. -/
def DB_INIT : db := ⟨0, 0, fun _ => ⟨0, 0, 0, 0⟩, POOL_INIT⟩

/-- The characters of a C string: the bytes before the first nul. -/
def c_str (s : List Nat) : List Nat := s.takeWhile (fun b => b != 0)

/-- Library function `strlen`. -/
def strlen (s : List Nat) : Nat := (c_str s).length

/-- Library function `strcpy`: the characters of `s` and a nul, stored from `dst` on. -/
def strcpy (buf : Nat → Nat) (dst : Nat) (s : List Nat) : Nat → Nat :=
  fun i => if dst ≤ i ∧ i ≤ dst + strlen s then (c_str s).getD (i - dst) 0 else buf i

/-- Library function `realloc`: the old contents up to the lesser of the two
sizes, unspecified bytes above. -/
def realloc (h : heap) (buf : Nat → Nat) (old new : Nat) : Nat → Nat :=
  fun i => if i < min old new then buf i else h.byte i

/-- One pass through the body of the `while` loop of `pool_push`. -/
def pool_grow_step (h : heap) (p : pool) : pool :=
  let size := if p.size = 0 then 4096 else (p.size * 2) % U32
  { size := size, fill := p.fill, buffer := realloc h p.buffer p.size size }

/-- The `while (p->fill + size > p->size)` loop of `pool_push`, `need` being
`p->fill + size`. -/
def pool_grow (h : heap) (need : Nat) : Nat → pool → Option pool
  | 0, p => if need > p.size then none else some p
  | fuel + 1, p =>
    if need > p.size then pool_grow h need fuel (pool_grow_step h p) else some p

/-- Function `pool_push`: the new pool and the returned offset.  The sum
`p->fill + size` is formed in `size_t` and does not wrap (a text is far
shorter than `2 ^ 64` bytes); `p->fill += size` and the returned
`p->fill - size` are reduced to `uint32_t`. -/
def pool_push (fuel : Nat) (h : heap) (p : pool) (s : List Nat) : Option (pool × Nat) :=
  let size := strlen s + 1
  match pool_grow h (p.fill + size) fuel p with
  | none => none
  | some p1 =>
    let fill := (p1.fill + size) % U32
    some ({ size := p1.size, fill := fill, buffer := strcpy p1.buffer p1.fill s },
          (fill + (U32 - size % U32)) % U32)

/-- The text a `char *` at `address` denotes: the bytes up to the first nul,
`none` when no nul occurs inside the allocated block. -/
def read_str (buf : Nat → Nat) : Nat → Nat → Option (List Nat)
  | 0, _ => none
  | n + 1, a => if buf a = 0 then some [] else (read_str buf n (a + 1)).map (fun t => buf a :: t)

/-- Function `db_string`, as the text found at the returned pointer. -/
def db_string (d : db) (address : Nat) : Option (List Nat) :=
  read_str d.pool.buffer (d.pool.size - address) address

/-- The second argument of `db_push`: a pointer to a local record, or a
pointer to entry `i` of the node array of the database itself. -/
inductive src where
  | val (v : node)
  | ref (i : Nat)

/-- The record that `db_push` stores.  It is read through the pointer after the
array has been reallocated, so a pointer into the old array is stale when the
array grew and the record read is whatever the released storage holds. -/
def pushed (h : heap) (d : db) : src → node
  | src.val v => v
  | src.ref i => if d.count = d.max then h.cell i else d.nodes i

/-- Function `db_push`: the new database and the returned index; `none` when
the store `db->nodes[db->count]` falls outside the array. -/
def db_push (h : heap) (d : db) (s : src) : Option (db × Nat) :=
  let max := if d.count = d.max then (if d.max = 0 then 16 else (d.max * 2) % U32) else d.max
  if d.count < max then
    some ({ max := max, count := (d.count + 1) % U32,
            nodes := Function.update d.nodes d.count (pushed h d s), pool := d.pool }, d.count)
  else none

/-- Function `db_split`.  The initialisers of `new_question` are evaluated in
the order they are written.  The source does not check `i`; an index at or
beyond `count` designates no node of the document and reading
`db->nodes[i]` is then undefined, hence `none`. -/
def db_split (fuel : Nat) (h : heap) (d : db) (i : Nat) (question animal : List Nat) :
    Option db :=
  if i < d.count then
    match pool_push fuel h d.pool animal with
    | none => none
    | some (p1, a) =>
      match pool_push fuel h p1 question with
      | none => none
      | some (p2, q) =>
        match db_push h { max := d.max, count := d.count, nodes := d.nodes, pool := p2 }
            (src.val ⟨ANSWER, a, 0, 0⟩) with
        | none => none
        | some (d1, yes) =>
          match db_push h d1 (src.ref i) with
          | none => none
          | some (d2, no) =>
            some { max := d2.max, count := d2.count,
                   nodes := Function.update d2.nodes i ⟨QUESTION, q, yes, no⟩,
                   pool := d2.pool }
  else none

/-- The bytes of an ASCII string literal. -/
def bytes (s : String) : List Nat := s.data.map (fun c => c.toNat)

/-- The start of `main` when no database file exists. -/
def main_init (fuel : Nat) (h : heap) : Option db :=
  match pool_push fuel h DB_INIT.pool (bytes "elephant") with
  | none => none
  | some (p, t) =>
    match db_push h { max := DB_INIT.max, count := DB_INIT.count, nodes := DB_INIT.nodes,
                      pool := p } (src.val ⟨ANSWER, t, 0, 0⟩) with
    | none => none
    | some (d, _) => some d

/-- Four bytes of a `uint32_t` in little-endian order (`htole32` and `fwrite`). -/
def le32 (x : Nat) : List Nat :=
  [x % 256, x / 256 % 256, x / 65536 % 256, x / 16777216 % 256]

/-- Function `pool_save`. -/
def pool_save (p : pool) : List Nat :=
  le32 p.fill ++ (List.range p.fill).map p.buffer

/-- The bytes written for one node by the body of the loop of `db_save`. -/
def save_node (n : node) : List Nat :=
  [n.type % 256] ++ le32 n.text ++
    (if n.type = QUESTION then le32 n.yes ++ le32 n.no else [])

/-- The `for` loop of `db_save`, `k` iterations starting at index `i`. -/
def db_save_loop (d : db) : Nat → Nat → List Nat
  | 0, _ => []
  | k + 1, i => save_node (d.nodes i) ++ db_save_loop d k (i + 1)

/-- Function `db_save`: the bytes written to the file. -/
def db_save (d : db) : List Nat :=
  le32 d.count ++ db_save_loop d d.count 0 ++ pool_save d.pool

/-- Read a little-endian `uint32_t` (`fread` and `le32toh`); `none` on a short read. -/
def rd32 : List Nat → Option (Nat × List Nat)
  | b0 :: b1 :: b2 :: b3 :: rest => some (b0 + 256 * b1 + 65536 * b2 + 16777216 * b3, rest)
  | _ => none

/-- Function `pool_load`; `none` on a short read. -/
def pool_load (h : heap) (bs : List Nat) : Option (pool × List Nat) :=
  match rd32 bs with
  | none => none
  | some (fill, bs1) =>
    if fill ≤ bs1.length then
      some ({ size := fill, fill := fill,
              buffer := fun i => if i < fill then bs1.getD i 0 else h.byte i },
            bs1.drop fill)
    else none

/-- The `for` loop of `db_load`, `k` iterations starting at index `i`; the
fields `yes` and `no` of a node that is not a question are left as found. -/
def db_load_loop : Nat → Nat → (Nat → node) → List Nat → Option ((Nat → node) × List Nat)
  | 0, _, nodes, bs => some (nodes, bs)
  | k + 1, i, nodes, bs =>
    match bs with
    | [] => none
    | ty :: bs1 =>
      match rd32 bs1 with
      | none => none
      | some (text, bs2) =>
        if ty = QUESTION then
          match rd32 bs2 with
          | none => none
          | some (yes, bs3) =>
            match rd32 bs3 with
            | none => none
            | some (no, bs4) =>
              db_load_loop k (i + 1) (Function.update nodes i ⟨ty, text, yes, no⟩) bs4
        else
          db_load_loop k (i + 1)
            (Function.update nodes i ⟨ty, text, (nodes i).yes, (nodes i).no⟩) bs2

/-- Function `db_load`: the database and the unread rest of the file; `none`
on a short read. -/
def db_load (h : heap) (bs : List Nat) : Option (db × List Nat) :=
  match rd32 bs with
  | none => none
  | some (count, bs1) =>
    match db_load_loop count 0 h.cell bs1 with
    | none => none
    | some (nodes, bs2) =>
      match pool_load h bs2 with
      | none => none
      | some (p, bs3) => some ({ max := count, count := count, nodes := nodes, pool := p }, bs3)

/-- The record of one node as the format description words it: one kind byte
(0 for a Question, 1 for an Answer), the text handle as four little-endian
bytes and, only for a Question, `yes` then `no` as four little-endian bytes
each. -/
def layout_node (n : node) : List Nat :=
  (if n.type = QUESTION then [0] else [1]) ++ le32 n.text ++
    (if n.type = QUESTION then le32 n.yes ++ le32 n.no else [])

/-- The file as the format description words it: the count, the node records
in index order, the pool fill, the first `fill` bytes of the pool. -/
def layout_file (d : db) : List Nat :=
  le32 d.count ++ (List.range d.count).flatMap (fun i => layout_node (d.nodes i)) ++
    le32 d.pool.fill ++ (List.range d.pool.fill).map d.pool.buffer

/-- A text without nul bytes. -/
def nul_free (s : List Nat) : Prop := ∀ b ∈ s, b ≠ 0

instance (s : List Nat) : Decidable (nul_free s) :=
  inferInstanceAs (Decidable (∀ b ∈ s, b ≠ 0))

/-- A finite sequence of calls of `pool_push` with nul-free texts, all of
which return, leads from pool `p` to the pool on the right. -/
inductive pool_pushes (p : pool) : pool → Prop
  | refl : pool_pushes p p
  | step (q r : pool) (fuel : Nat) (h : heap) (s : List Nat) (a : Nat) :
      pool_pushes p q → nul_free s → pool_push fuel h q s = some (r, a) → pool_pushes p r

/-- Heap contents used in the examples: every unwritten byte is `0xAA`, every
unwritten node record is all ones. -/
def heap0 : heap := ⟨fun _ => 170, fun _ => ⟨4294967295, 4294967295, 4294967295, 4294967295⟩⟩

/-- A pool of 3221225471 bytes of which 3221225456 are used; every stored
byte is `A`. -/
def pool_3g : pool := ⟨3221225471, 3221225456, fun _ => 65⟩

/-- A pool holding `2 ^ 31` bytes in a block of `2 ^ 31` bytes. -/
def pool_2g : pool := ⟨2147483648, 2147483648, fun _ => 65⟩

/-- The empty pool after `dog` has been pushed. -/
def pool_dog : pool :=
  ((pool_push 32 heap0 POOL_INIT [100, 111, 103]).map Prod.fst).getD POOL_INIT

/-- The pool `pool_dog` after `cat` has been pushed. -/
def pool_dog_cat : pool :=
  ((pool_push 32 heap0 pool_dog [99, 97, 116]).map Prod.fst).getD POOL_INIT

/-- The initial document: one Answer node `elephant`. -/
def doc_init : db := (main_init 1 heap0).getD DB_INIT

/-- The text `Does it have a trunk?`. -/
def trunk : List Nat := bytes "Does it have a trunk?"

/-- The text `dog`. -/
def dog : List Nat := bytes "dog"

/-- A document of one Answer node whose pool holds `2 ^ 31` bytes. -/
def doc_2g : db := ⟨16, 1, fun _ => ⟨ANSWER, 0, 0, 0⟩, pool_2g⟩

/-- A document of `2 ^ 31` Answer nodes in an array of `2 ^ 31` entries. -/
def doc_full : db := ⟨2147483648, 2147483648, fun _ => ⟨ANSWER, 0, 0, 0⟩, pool_dog⟩

/-- A document with a Question at index 0 whose pool holds `2 ^ 31` bytes. -/
def doc_2g_q : db :=
  ⟨16, 3, fun j => if j = 0 then ⟨QUESTION, 0, 1, 2⟩ else ⟨ANSWER, 0, 0, 0⟩, pool_2g⟩

/-- A file of one node with the kind byte 7 and text handle 0, over a pool of
the two bytes `x` and nul. -/
def file_kind7 : List Nat := [1, 0, 0, 0, 7, 0, 0, 0, 0, 2, 0, 0, 0, 120, 0]

/-- The document that `db_load` builds from `file_kind7`. -/
def doc_kind7 : db := ((db_load heap0 file_kind7).map Prod.fst).getD DB_INIT

/-- Heap contents in which released storage reads as zeros. -/
def heap_zero : heap := ⟨fun _ => 0, fun _ => ⟨0, 0, 0, 0⟩⟩

/-- Heap contents in which released storage reads as a record of kind 0 whose
child fields are 4096. -/
def heap_far : heap := ⟨fun _ => 170, fun _ => ⟨0, 0, 4096, 4096⟩⟩

/-- The documents of the game: the initial document, and every document that
a returning `db_split` on an Answer node with nul-free texts makes of one. -/
inductive reachable : db → Prop
  | init (fuel : Nat) (h : heap) (d : db) : main_init fuel h = some d → reachable d
  | split (fuel : Nat) (h : heap) (d d' : db) (i : Nat) (q w : List Nat) :
      reachable d → i < d.count → (d.nodes i).type = ANSWER → nul_free q → nul_free w →
      db_split fuel h d i q w = some d' → reachable d'

/-- The Question at index `i` refers to index `j` as its `yes` or `no` child. -/
def edge (d : db) (i j : Nat) : Prop :=
  (d.nodes i).type = QUESTION ∧ ((d.nodes i).yes = j ∨ (d.nodes i).no = j)

instance (d : db) : DecidableRel (edge d) := fun i j =>
  inferInstanceAs (Decidable ((d.nodes i).type = QUESTION ∧
    ((d.nodes i).yes = j ∨ (d.nodes i).no = j)))

/-- Every Question of the document has both children below the count. -/
def children_valid (d : db) : Prop :=
  ∀ i, i < d.count → (d.nodes i).type = QUESTION →
    (d.nodes i).yes < d.count ∧ (d.nodes i).no < d.count

/-- One wrong guess at the last node of the document: `db_split` with the
texts `Does it have a trunk?` and `dog`. -/
def split_last (h : heap) (d : db) : db :=
  (db_split 32 h d (d.count - 1) trunk dog).getD d

/-- The initial document after seven wrong guesses: 15 nodes in an array of 16. -/
def doc15 (h : heap) : db :=
  split_last h (split_last h (split_last h (split_last h (split_last h (split_last h
    (split_last h doc_init))))))

/-- The initial document after eight wrong guesses. -/
def doc17 (h : heap) : db := split_last h (doc15 h)

/-- The initial document after one wrong guess: the Question
`Does it have a trunk?` at index 0, the Answers `dog` and `elephant` at the
indices 1 and 2. -/
def doc3 : db := split_last heap0 doc_init

/-- The document that `db_load` builds from the file `db_save` wrote for the
initial document: one node in an array of one entry. -/
def doc_loaded : db := ((db_load heap0 (db_save doc_init)).map Prod.fst).getD DB_INIT




/-- The capacity invariant of a document: `count ≤ max` and pool
`fill ≤ size`. -/
def cap_inv (d : db) : Prop := d.count ≤ d.max ∧ d.pool.fill ≤ d.pool.size

instance (d : db) : Decidable (cap_inv d) :=
  inferInstanceAs (Decidable (d.count ≤ d.max ∧ d.pool.fill ≤ d.pool.size))

/-- Offset `a` is the start of a string stored in the used part of the pool:
it is below the fill, it is 0 or comes right after a nul, and a nul occurs at
or after it below the fill. -/
def handle_ok (d : db) (a : Nat) : Prop :=
  a < d.pool.fill ∧ (a = 0 ∨ d.pool.buffer (a - 1) = 0) ∧
    ∃ k, k < d.pool.fill ∧ a ≤ k ∧ d.pool.buffer k = 0

/-- Every node of the document has a text handle that is the start of a
stored string, and the used part of the pool, unless empty, ends in a nul. -/
def handles_ok (d : db) : Prop :=
  (∀ i, i < d.count → handle_ok d (d.nodes i).text) ∧
    (d.pool.fill = 0 ∨ d.pool.buffer (d.pool.fill - 1) = 0)

/-- The traversal loop of `main` from node `n`: the indices at which the loop
looks up a node, one response being consumed at every Question (`true` for
YES, `false` for NO); the walk ends at the first node that is not a Question
or when the responses run out. -/
def walk (d : db) : Nat → List Bool → List Nat
  | n, [] => [n]
  | n, r :: rs =>
    if (d.nodes n).type = QUESTION then
      n :: walk d (if r then (d.nodes n).yes else (d.nodes n).no) rs
    else [n]

/-! ## The string pool -/

theorem U32_eq : U32 = 4294967296 := by decide

theorem c_str_of_nul_free (s : List Nat) (hs : nul_free s) : c_str s = s := by
  unfold c_str
  apply List.takeWhile_eq_self_iff.mpr
  intro b hb
  have := hs b hb
  simpa using this

theorem strlen_of_nul_free (s : List Nat) (hs : nul_free s) : strlen s = s.length := by
  unfold strlen; rw [c_str_of_nul_free s hs]

/-- What the growth loop guarantees whenever it ends, provided it never has to
double past `2 ^ 31`. -/
theorem pool_grow_some (h : heap) (need : Nat) :
    ∀ (fuel : Nat) (p p' : pool), pool_grow h need fuel p = some p' →
      (need ≤ 2 ^ 31 ∨ need ≤ p.size) →
      need ≤ p'.size ∧ p.size ≤ p'.size ∧ p'.fill = p.fill ∧
        (∀ i, i < p.size → p'.buffer i = p.buffer i) ∧
        (p.size < U32 → p'.size < U32) := by
  intro fuel
  induction fuel with
  | zero =>
    intro p p' hp _
    unfold pool_grow at hp
    split at hp
    · exact absurd hp (by simp)
    · have : p = p' := by simpa using hp
      subst this
      refine ⟨by omega, le_refl _, rfl, fun _ _ => rfl, fun x => x⟩
  | succ fuel ih =>
    intro p p' hp hr
    unfold pool_grow at hp
    split at hp
    next hgt =>
      have hneed : need ≤ 2 ^ 31 := by omega
      have hstep := ih (pool_grow_step h p) p' hp (Or.inl hneed)
      have hsz : (pool_grow_step h p).size = if p.size = 0 then 4096 else p.size * 2 := by
        simp only [pool_grow_step, U32_eq]
        split
        · rfl
        · apply Nat.mod_eq_of_lt; omega
      have hle : p.size ≤ (pool_grow_step h p).size := by
        rw [hsz]; split <;> omega
      obtain ⟨h1, h2, h3, h4, h5⟩ := hstep
      refine ⟨h1, le_trans hle h2, by rw [h3]; rfl, ?_, ?_⟩
      · intro i hi
        rw [h4 i (lt_of_lt_of_le hi hle)]
        simp only [pool_grow_step, realloc]
        rw [if_pos]
        rw [hsz] at hle
        simp only [U32_eq] at *
        split <;> omega
      · intro _
        apply h5
        rw [hsz, U32_eq]
        split <;> omega
    next hle =>
      have : p = p' := by simpa using hp
      subst this
      refine ⟨by omega, le_refl _, rfl, fun _ _ => rfl, fun x => x⟩

/-- Enough fuel: the growth loop ends when no more than `2 ^ 31` bytes are needed. -/
theorem pool_grow_fuel (h : heap) (need : Nat) :
    ∀ (fuel : Nat) (p : pool),
      (need ≤ p.size ∨ (need ≤ 2 ^ 31 ∧ (2 ^ 31 ≤ p.size * 2 ^ fuel ∨ (p.size = 0 ∧ 20 ≤ fuel)))) →
      ∃ p', pool_grow h need fuel p = some p' := by
  intro fuel
  induction fuel with
  | zero =>
    intro p hp
    refine ⟨p, ?_⟩
    unfold pool_grow
    rw [if_neg]
    rcases hp with hp | ⟨h1, h2 | h2⟩ <;> omega
  | succ fuel ih =>
    intro p hp
    unfold pool_grow
    split
    next hgt =>
      apply ih
      right
      rcases hp with hp | ⟨h1, h2⟩
      · omega
      · refine ⟨h1, ?_⟩
        simp only [pool_grow_step, U32_eq]
        by_cases h0 : p.size = 0
        · left
          rw [if_pos h0]
          rcases h2 with h2 | ⟨_, h2⟩
          · rw [h0] at h2; omega
          · calc 2 ^ 31 = 4096 * 2 ^ 19 := by norm_num
              _ ≤ 4096 * 2 ^ fuel := by
                apply Nat.mul_le_mul_left
                exact Nat.pow_le_pow_right (by norm_num) (by omega)
        · left
          rw [if_neg h0]
          rcases h2 with h2 | ⟨h2, _⟩
          · rw [Nat.mod_eq_of_lt (by omega)]
            have e : p.size * 2 ^ (fuel + 1) = p.size * 2 * 2 ^ fuel := by ring
            rw [e] at h2
            exact h2
          · exact absurd h2 h0
    next hle => exact ⟨p, rfl⟩

/-- What the growth loop guarantees whenever it ends, from any start. -/
theorem pool_grow_ret (h : heap) (need : Nat) :
    ∀ (fuel : Nat) (p p' : pool), pool_grow h need fuel p = some p' →
      need ≤ p'.size ∧ p'.fill = p.fill ∧ (p.size < U32 → p'.size < U32) := by
  intro fuel
  induction fuel with
  | zero =>
    intro p p' hp
    unfold pool_grow at hp
    split at hp
    · exact absurd hp (by simp)
    · have : p = p' := by simpa using hp
      subst this
      exact ⟨by omega, rfl, fun x => x⟩
  | succ fuel ih =>
    intro p p' hp
    unfold pool_grow at hp
    split at hp
    next hgt =>
      obtain ⟨h1, h2, h3⟩ := ih (pool_grow_step h p) p' hp
      refine ⟨h1, by rw [h2]; rfl, fun _ => h3 ?_⟩
      simp only [pool_grow_step, U32_eq]
      split
      · omega
      · exact Nat.mod_lt _ (by norm_num)
    next hle =>
      have : p = p' := by simpa using hp
      subst this
      exact ⟨by omega, rfl, fun x => x⟩

/-- A push that returns: the handle is the old fill, the fill advances by the
length of the text plus one, and the capacity invariant holds afterwards. -/
theorem pool_push_ret (fuel : Nat) (h : heap) (p p' : pool) (s : List Nat) (a : Nat)
    (hp : pool_push fuel h p s = some (p', a)) (hsz : p.size < U32) (hfill : p.fill < U32) :
    a = p.fill ∧ p'.fill = p.fill + strlen s + 1 ∧ p'.fill ≤ p'.size ∧ p'.size < U32 := by
  unfold pool_push at hp
  simp only at hp
  split at hp
  · exact absurd hp (by simp)
  next p1 hg =>
    obtain ⟨h1, h2, h3⟩ := pool_grow_ret h _ fuel p p1 hg
    have h3 := h3 hsz
    simp only [Option.some.injEq, Prod.mk.injEq] at hp
    obtain ⟨hp1, hp2⟩ := hp
    subst hp1
    simp only [U32_eq] at *
    rw [h2] at hp2 ⊢
    have e1 : (p.fill + (strlen s + 1)) % 4294967296 = p.fill + (strlen s + 1) :=
      Nat.mod_eq_of_lt (by omega)
    have e2 : (strlen s + 1) % 4294967296 = strlen s + 1 := Nat.mod_eq_of_lt (by omega)
    rw [e1, e2] at hp2
    rw [e1]
    refine ⟨?_, by omega, by omega, h3⟩
    rw [← hp2]
    have e3 : p.fill + (strlen s + 1) + (4294967296 - (strlen s + 1)) = p.fill + 4294967296 := by
      omega
    rw [e3]
    omega

/-- The bytes after a push that did not have to double past `2 ^ 31`. -/
theorem pool_push_bytes (fuel : Nat) (h : heap) (p p' : pool) (s : List Nat) (a : Nat)
    (hp : pool_push fuel h p s = some (p', a))
    (hr : p.fill + strlen s + 1 ≤ 2 ^ 31 ∨ p.fill + strlen s + 1 ≤ p.size) :
    p.size ≤ p'.size ∧
    (∀ i, i < p.fill → i < p.size → p'.buffer i = p.buffer i) ∧
    (∀ k, k ≤ strlen s → p'.buffer (p.fill + k) = (c_str s).getD k 0) := by
  unfold pool_push at hp
  simp only at hp
  split at hp
  · exact absurd hp (by simp)
  next p1 hg =>
    obtain ⟨h1, h2, h3, h4, h5⟩ := pool_grow_some h _ fuel p p1 hg (by omega)
    simp only [Option.some.injEq, Prod.mk.injEq] at hp
    obtain ⟨hp1, -⟩ := hp
    subst hp1
    refine ⟨h2, ?_, ?_⟩
    · intro i hi hi2
      simp only [strcpy]
      rw [if_neg (by omega)]
      exact h4 i hi2
    · intro k hk
      simp only [strcpy]
      rw [if_pos (by omega)]
      congr 1
      omega

/-- Enough fuel: a push returns when the fill stays within `2 ^ 31` or within
the present size. -/
theorem pool_push_fuel (fuel : Nat) (h : heap) (p : pool) (s : List Nat)
    (hr : p.fill + strlen s + 1 ≤ p.size ∨ (p.fill + strlen s + 1 ≤ 2 ^ 31 ∧ 32 ≤ fuel)) :
    ∃ r, pool_push fuel h p s = some r := by
  have hg : ∃ p1, pool_grow h (p.fill + (strlen s + 1)) fuel p = some p1 := by
    apply pool_grow_fuel
    rcases hr with hr | ⟨hr, hf⟩
    · left; omega
    · right
      refine ⟨by omega, ?_⟩
      by_cases h0 : p.size = 0
      · right; exact ⟨h0, by omega⟩
      · left
        calc 2 ^ 31 ≤ 1 * 2 ^ fuel := by
              rw [one_mul]; exact Nat.pow_le_pow_right (by norm_num) (by omega)
          _ ≤ p.size * 2 ^ fuel := Nat.mul_le_mul_right _ (by omega)
  obtain ⟨p1, hp1⟩ := hg
  unfold pool_push
  simp only [hp1]
  exact ⟨_, rfl⟩

/-- The text read at an offset where the bytes of a nul-free text are stored,
followed by a nul. -/
theorem read_str_stored (buf : Nat → Nat) :
    ∀ (s : List Nat) (n a : Nat), nul_free s → s.length < n →
      (∀ k, k ≤ s.length → buf (a + k) = s.getD k 0) → read_str buf n a = some s := by
  intro s
  induction s with
  | nil =>
    intro n a _ hn hb
    cases n with
    | zero => omega
    | succ n =>
      have := hb 0 (by simp)
      simp only [Nat.add_zero, List.getD_nil] at this
      simp [read_str, this]
  | cons b s ih =>
    intro n a hs hn hb
    cases n with
    | zero => omega
    | succ n =>
      have h0 := hb 0 (by simp)
      simp only [Nat.add_zero, List.getD_cons_zero] at h0
      have hb0 : b ≠ 0 := hs b (by simp)
      have hrest : read_str buf n (a + 1) = some s := by
        apply ih
        · intro c hc; exact hs c (by simp [hc])
        · simp only [List.length_cons] at hn; omega
        · intro k hk
          have := hb (k + 1) (by simp only [List.length_cons]; omega)
          simp only [List.getD_cons_succ] at this
          rw [← this]; congr 1; omega
      simp [read_str, h0, hb0, hrest]

/-- A text that was read is shorter than the number of bytes examined, and is
read again from any block holding the same bytes up to its terminator. -/
theorem read_str_congr (b1 b2 : Nat → Nat) :
    ∀ (n a : Nat) (t : List Nat), read_str b1 n a = some t →
      t.length < n ∧ ∀ m, t.length < m → (∀ k, k ≤ t.length → b2 (a + k) = b1 (a + k)) →
        read_str b2 m a = some t := by
  intro n
  induction n with
  | zero => intro a t ht; simp [read_str] at ht
  | succ n ih =>
    intro a t ht
    simp only [read_str] at ht
    split at ht
    next hz =>
      have : t = [] := by simpa using ht.symm
      subst this
      refine ⟨by simp, ?_⟩
      intro m hm hb
      cases m with
      | zero => simp at hm
      | succ m =>
        have := hb 0 (by simp)
        simp only [Nat.add_zero] at this
        simp [read_str, this, hz]
    next hz =>
      simp only [Option.map_eq_some'] at ht
      obtain ⟨t1, ht1, rfl⟩ := ht
      obtain ⟨hl, hrec⟩ := ih (a + 1) t1 ht1
      refine ⟨by simp only [List.length_cons]; omega, ?_⟩
      intro m hm hb
      cases m with
      | zero => simp at hm
      | succ m =>
        have h0 := hb 0 (by simp)
        simp only [Nat.add_zero] at h0
        have := hrec m (by simp only [List.length_cons] at hm; omega) (by
          intro k hk
          have := hb (k + 1) (by simp only [List.length_cons]; omega)
          rw [show a + 1 + k = a + (k + 1) by omega]
          exact this)
        simp [read_str, h0, hz, this]

/-- Sizes on the cycle `0, 4096, 8192, ..., 2 ^ 31, 0, ...` never reach a need
above `2 ^ 31`: the growth loop does not end, whatever the fuel. -/
theorem pool_grow_cycle (h : heap) (need : Nat) (hneed : 2 ^ 31 < need) :
    ∀ (fuel : Nat) (p : pool), (p.size = 0 ∨ ∃ k, k ≤ 19 ∧ p.size = 4096 * 2 ^ k) →
      pool_grow h need fuel p = none := by
  have hbound : ∀ p : pool, (p.size = 0 ∨ ∃ k, k ≤ 19 ∧ p.size = 4096 * 2 ^ k) →
      p.size ≤ 2 ^ 31 := by
    intro p hp
    rcases hp with hp | ⟨k, hk, hp⟩
    · omega
    · rw [hp]
      calc 4096 * 2 ^ k ≤ 4096 * 2 ^ 19 :=
            Nat.mul_le_mul_left _ (Nat.pow_le_pow_right (by norm_num) hk)
        _ = 2 ^ 31 := by norm_num
  intro fuel
  induction fuel with
  | zero =>
    intro p hp
    have := hbound p hp
    unfold pool_grow
    rw [if_pos (by omega)]
  | succ fuel ih =>
    intro p hp
    have hb := hbound p hp
    unfold pool_grow
    rw [if_pos (by omega)]
    apply ih
    simp only [pool_grow_step, U32_eq]
    rcases hp with hp | ⟨k, hk, hp⟩
    · right
      exact ⟨0, by omega, by simp [hp]⟩
    · have hpos : p.size ≠ 0 := by
        rw [hp]; positivity
      rw [if_neg hpos]
      by_cases h19 : k = 19
      · left
        rw [hp, h19]
        norm_num
      · right
        refine ⟨k + 1, by omega, ?_⟩
        have hlt : 4096 * 2 ^ (k + 1) ≤ 4096 * 2 ^ 19 :=
          Nat.mul_le_mul_left _ (Nat.pow_le_pow_right (by norm_num) (by omega))
        have e : p.size * 2 = 4096 * 2 ^ (k + 1) := by rw [hp]; ring
        rw [e]
        apply Nat.mod_eq_of_lt
        have : (4096 : Nat) * 2 ^ 19 = 2147483648 := by norm_num
        omega

/-- Along a sequence of pushes the capacity invariant holds and the fill never
decreases. -/
theorem pool_pushes_inv (p q : pool) (hseq : pool_pushes p q)
    (hcap : p.fill ≤ p.size) (hsz : p.size < U32) :
    q.fill ≤ q.size ∧ q.size < U32 ∧ p.fill ≤ q.fill := by
  induction hseq with
  | refl => exact ⟨hcap, hsz, le_refl _⟩
  | step q r fuel h s a _ _ hpush ih =>
    obtain ⟨h1, h2, h3⟩ := ih
    obtain ⟨-, e2, e3, e4⟩ := pool_push_ret fuel h q r s a hpush h2 (by omega)
    exact ⟨e3, e4, by omega⟩

/-- Along a sequence of pushes that ends with a fill of at most `2 ^ 31`, the
bytes below the initial fill stay as they are. -/
theorem pool_pushes_bytes (p q : pool) (hseq : pool_pushes p q)
    (hcap : p.fill ≤ p.size) (hsz : p.size < U32) (hr : q.fill ≤ 2 ^ 31) :
    ∀ i, i < p.fill → q.buffer i = p.buffer i := by
  induction hseq with
  | refl => intro i _; rfl
  | step q r fuel h s a hpq _ hpush ih =>
    obtain ⟨h1, h2, h3⟩ := pool_pushes_inv p q hpq hcap hsz
    obtain ⟨-, e2, -, -⟩ := pool_push_ret fuel h q r s a hpush h2 (by omega)
    obtain ⟨-, b2, -⟩ := pool_push_bytes fuel h q r s a hpush (by omega)
    intro i hi
    rw [b2 i (by omega) (by omega)]
    exact ih (by omega) i hi

/-! ## The node store -/

/-- A push into a store whose capacity can still be doubled within 32 bits. -/
theorem db_push_spec (h : heap) (d : db) (s : src) (hcm : d.count ≤ d.max)
    (hmax : d.max < U32) (hroom : d.max < 2 ^ 31 ∨ d.count + 1 ≤ d.max) :
    db_push h d s =
      some (⟨if d.count = d.max then (if d.max = 0 then 16 else d.max * 2) else d.max,
             d.count + 1, Function.update d.nodes d.count (pushed h d s), d.pool⟩, d.count) := by
  simp only [U32_eq] at hmax
  have e1 : (d.count + 1) % U32 = d.count + 1 := by
    rw [U32_eq]; apply Nat.mod_eq_of_lt; omega
  have e2 : d.max < 2 ^ 31 → (d.max * 2) % U32 = d.max * 2 := by
    intro hlt; rw [U32_eq]; apply Nat.mod_eq_of_lt; omega
  unfold db_push
  simp only [e1]
  by_cases hg : d.count = d.max
  · have hlt : d.max < 2 ^ 31 := by omega
    simp only [hg, if_true, e2 hlt]
    rw [if_pos]
    split <;> omega
  · simp only [hg, if_false]
    rw [if_pos]
    omega

/-- A split whose texts fit below `2 ^ 31` pool bytes and whose two appends
fit a capacity that can be doubled within 32 bits: the call returns, and the
result is described field by field. -/
theorem db_split_spec (fuel : Nat) (h : heap) (d : db) (i : Nat) (question animal : List Nat)
    (hi : i < d.count) (hcm : d.count ≤ d.max) (hmax : d.max < U32)
    (hroom : d.max < 2 ^ 31 ∨ d.count + 2 ≤ d.max)
    (hcap : d.pool.fill ≤ d.pool.size) (hsz : d.pool.size < U32)
    (hr : d.pool.fill + (strlen animal + 1) + (strlen question + 1) ≤ 2 ^ 31)
    (hfuel : 32 ≤ fuel) :
    ∃ d', db_split fuel h d i question animal = some d' ∧
      d'.count = d.count + 2 ∧ d'.count ≤ d'.max ∧ d'.max < U32 ∧
      d'.nodes = Function.update (Function.update (Function.update d.nodes d.count
          ⟨ANSWER, d.pool.fill, 0, 0⟩) (d.count + 1)
          (if d.count + 1 = (if d.count = d.max then d.max * 2 else d.max)
            then h.cell i else d.nodes i)) i
          ⟨QUESTION, d.pool.fill + strlen animal + 1, d.count, d.count + 1⟩ ∧
      d'.pool.fill = d.pool.fill + (strlen animal + 1) + (strlen question + 1) ∧
      d'.pool.fill ≤ d'.pool.size ∧ d'.pool.size < U32 ∧ d.pool.size ≤ d'.pool.size ∧
      (∀ k, k < d.pool.fill → d'.pool.buffer k = d.pool.buffer k) ∧
      (∀ k, k ≤ strlen animal → d'.pool.buffer (d.pool.fill + k) = (c_str animal).getD k 0) ∧
      (∀ k, k ≤ strlen question →
        d'.pool.buffer (d.pool.fill + strlen animal + 1 + k) = (c_str question).getD k 0) := by
  obtain ⟨⟨p1, a⟩, hp1⟩ := pool_push_fuel fuel h d.pool animal (Or.inr ⟨by omega, hfuel⟩)
  obtain ⟨a1, a2, a3, a4⟩ := pool_push_ret fuel h d.pool p1 animal a hp1 hsz (by omega)
  obtain ⟨b1, b2, b3⟩ := pool_push_bytes fuel h d.pool p1 animal a hp1 (Or.inl (by omega))
  obtain ⟨⟨p2, q⟩, hp2⟩ := pool_push_fuel fuel h p1 question (Or.inr ⟨by omega, hfuel⟩)
  obtain ⟨q1, q2, q3, q4⟩ := pool_push_ret fuel h p1 p2 question q hp2 a4 (by omega)
  obtain ⟨c1, c2, c3⟩ := pool_push_bytes fuel h p1 p2 question q hp2 (Or.inl (by omega))
  subst a1 q1
  have hd1 := db_push_spec h ⟨d.max, d.count, d.nodes, p2⟩ (src.val ⟨ANSWER, d.pool.fill, 0, 0⟩)
    hcm hmax (by simp only; omega)
  have hmax0 : d.max ≠ 0 := by omega
  simp only [hmax0, if_false] at hd1
  have hd2 := db_push_spec h
    ⟨if d.count = d.max then d.max * 2 else d.max, d.count + 1,
      Function.update d.nodes d.count (pushed h ⟨d.max, d.count, d.nodes, p2⟩
        (src.val ⟨ANSWER, d.pool.fill, 0, 0⟩)), p2⟩ (src.ref i)
    (by simp only; split <;> omega)
    (by simp only [U32_eq] at *; split <;> omega)
    (by simp only; split <;> omega)
  have hs : ∃ d', db_split fuel h d i question animal = some d' ∧
      d'.count = d.count + 1 + 1 ∧
      d'.max = (if d.count + 1 = (if d.count = d.max then d.max * 2 else d.max) then
        (if (if d.count = d.max then d.max * 2 else d.max) = 0 then 16
          else (if d.count = d.max then d.max * 2 else d.max) * 2)
        else (if d.count = d.max then d.max * 2 else d.max)) ∧
      d'.nodes = Function.update (Function.update (Function.update d.nodes d.count
          ⟨ANSWER, d.pool.fill, 0, 0⟩) (d.count + 1)
          (if d.count + 1 = (if d.count = d.max then d.max * 2 else d.max)
            then h.cell i else Function.update d.nodes d.count ⟨ANSWER, d.pool.fill, 0, 0⟩ i)) i
          ⟨QUESTION, p1.fill, d.count, d.count + 1⟩ ∧
      d'.pool = p2 := by
    unfold db_split
    rw [if_pos hi]
    simp only [hp1, hp2, hd1, hd2]
    exact ⟨_, rfl, rfl, rfl, rfl, rfl⟩
  obtain ⟨d', hd', e1, e2, e3, e4⟩ := hs
  have hne : i ≠ d.count := by omega
  refine ⟨d', hd', e1, ?_, ?_, ?_, ?_, ?_, ?_, ?_, ?_, ?_, ?_⟩
  · rw [e1, e2]; split_ifs <;> omega
  · rw [e2]; simp only [U32_eq] at *; split_ifs <;> omega
  · rw [e3, Function.update_noteq hne, a2]
  · rw [e4, q2, a2]; omega
  · rw [e4]; exact q3
  · rw [e4]; exact q4
  · rw [e4]; omega
  · intro k hk
    rw [e4, c2 k (by omega) (by omega), b2 k hk (by omega)]
  · intro k hk
    rw [e4, c2 _ (by omega) (by omega)]
    exact b3 k hk
  · intro k hk
    rw [e4]
    have := c3 k hk
    rw [a2] at this
    exact this

/-- An append into a full array whose doubled 32-bit capacity does not exceed
the count stores outside the array. -/
theorem db_push_wrap (h : heap) (d : db) (s : src) (hfull : d.count = d.max)
    (h0 : d.max ≠ 0) (hwrap : (d.max * 2) % U32 ≤ d.max) : db_push h d s = none := by
  unfold db_push
  simp only [hfull, if_true, if_neg h0]
  rw [if_neg (by omega)]

/-- A split of a document whose array is full and cannot be doubled returns no
document. -/
theorem db_split_wrap (fuel : Nat) (h : heap) (d : db) (i : Nat) (question animal : List Nat)
    (hfull : d.count = d.max) (h0 : d.max ≠ 0) (hwrap : (d.max * 2) % U32 ≤ d.max) :
    db_split fuel h d i question animal = none := by
  unfold db_split
  split
  · cases hp1 : pool_push fuel h d.pool animal with
    | none => rfl
    | some r1 =>
      obtain ⟨p1, a⟩ := r1
      simp only
      cases hp2 : pool_push fuel h p1 question with
      | none => rfl
      | some r2 =>
        obtain ⟨p2, q⟩ := r2
        simp only
        rw [db_push_wrap h ⟨d.max, d.count, d.nodes, p2⟩ _ hfull h0 hwrap]
  · rfl

/-! ## Claims about the string pool -/

/-- C8 (as amended): for every pool with `fill ≤ size < 2 ^ 32` and every
nul-free text `s` of length `n` such that `fill + n + 1` is at most `2 ^ 31`
(or fits the present size), `pool_push` returns the old fill `f`, sets the fill
to `f + n + 1`, stores the bytes of `s` and one nul at the offsets `f .. f + n`
and leaves the bytes `0 .. f - 1` as they are; a second push of the same text,
whenever it returns, returns `f + n + 1`, which differs from `f`, and it does
return while `f + 2 * (n + 1)` is at most `2 ^ 31`. -/
theorem pool_push_appends (fuel : Nat) (h : heap) (p : pool) (s : List Nat)
    (hs : nul_free s) (hcap : p.fill ≤ p.size) (hsz : p.size < U32)
    (hr : p.fill + s.length + 1 ≤ 2 ^ 31 ∨ p.fill + s.length + 1 ≤ p.size)
    (hfuel : 32 ≤ fuel) :
    ∃ p', pool_push fuel h p s = some (p', p.fill) ∧
      p'.fill = p.fill + s.length + 1 ∧
      (∀ k, k < s.length → p'.buffer (p.fill + k) = s.getD k 0) ∧
      p'.buffer (p.fill + s.length) = 0 ∧
      (∀ i, i < p.fill → p'.buffer i = p.buffer i) ∧
      (∀ fuel2 h2 p2 a2, pool_push fuel2 h2 p' s = some (p2, a2) →
        a2 = p.fill + s.length + 1 ∧ a2 ≠ p.fill) ∧
      (p.fill + 2 * (s.length + 1) ≤ 2 ^ 31 →
        ∃ p2, pool_push fuel h p' s = some (p2, p.fill + s.length + 1)) := by
  have hlen := strlen_of_nul_free s hs
  have hstr := c_str_of_nul_free s hs
  obtain ⟨⟨p', a⟩, hp⟩ := pool_push_fuel fuel h p s (by rw [hlen]; omega)
  obtain ⟨e1, e2, e3, e4⟩ := pool_push_ret fuel h p p' s a hp hsz (by omega)
  obtain ⟨b1, b2, b3⟩ := pool_push_bytes fuel h p p' s a hp (by rw [hlen]; omega)
  rw [hlen] at e2 b3
  rw [hstr] at b3
  subst e1
  refine ⟨p', hp, e2, fun k hk => b3 k (by omega), ?_, fun i hi => b2 i hi (by omega), ?_, ?_⟩
  · rw [b3 s.length (le_refl _)]
    exact List.getD_eq_default _ _ (le_refl _)
  · intro fuel2 h2 p2 a2 hp2
    obtain ⟨f1, -, -, -⟩ := pool_push_ret fuel2 h2 p' p2 s a2 hp2 e4 (by omega)
    omega
  · intro hr2
    obtain ⟨⟨p2, a2⟩, hp2⟩ := pool_push_fuel fuel h p' s (by rw [hlen]; omega)
    obtain ⟨f1, -, -, -⟩ := pool_push_ret fuel h p' p2 s a2 hp2 e4 (by omega)
    refine ⟨p2, ?_⟩
    rw [hp2, f1, e2]

/-- Witness for C8: pushing `dog` into the empty pool. -/
theorem pool_push_appends_witness :
    ∃ p', pool_push 32 heap0 POOL_INIT [100, 111, 103] = some (p', 0) ∧
      p'.fill = 0 + 3 + 1 ∧
      (∀ k, k < 3 → p'.buffer (0 + k) = [100, 111, 103].getD k 0) ∧
      p'.buffer (0 + 3) = 0 ∧
      (∀ i, i < 0 → p'.buffer i = POOL_INIT.buffer i) ∧
      (∀ fuel2 h2 p2 a2, pool_push fuel2 h2 p' [100, 111, 103] = some (p2, a2) →
        a2 = 0 + 3 + 1 ∧ a2 ≠ 0) ∧
      (0 + 2 * (3 + 1) ≤ 2 ^ 31 →
        ∃ p2, pool_push 32 heap0 p' [100, 111, 103] = some (p2, 0 + 3 + 1)) :=
  pool_push_appends 32 heap0 POOL_INIT [100, 111, 103] (by decide) (by decide) (by decide)
    (by decide) (by decide)

/-- Counterexample to C8 as stated: the pool holds `2 ^ 31` bytes in a block of
`2 ^ 31` bytes and the text is `a`, so `fill + length + 1` is within 32-bit
range; `pool_push` returns for no amount of fuel (the size runs through
`0, 4096, ..., 2 ^ 31, 0, ...`). -/
theorem pool_push_2g_never_returns :
    nul_free [97] ∧ pool_2g.fill ≤ pool_2g.size ∧ pool_2g.fill + [97].length + 1 < U32 ∧
      ¬ ∃ fuel r, pool_push fuel heap0 pool_2g [97] = some r := by
  refine ⟨by decide, by decide, by decide, ?_⟩
  rintro ⟨fuel, r, hr⟩
  have hg : pool_grow heap0 (pool_2g.fill + (strlen [97] + 1)) fuel pool_2g = none := by
    apply pool_grow_cycle
    · decide
    · right
      exact ⟨19, le_refl _, by decide⟩
  unfold pool_push at hr
  simp only [hg] at hr
  exact absurd hr (by simp)

/-- C5 (as amended): for every pool with `fill ≤ size < 2 ^ 32` and every
nul-free text `s`, if `pool_push` returns the handle `a`, then after any
further finite sequence of returning `pool_push` calls with nul-free texts
that leaves the fill at no more than `2 ^ 31`, the nul-terminated string read
at offset `a` is exactly `s`. -/
theorem pool_handle_stable (fuel : Nat) (h : heap) (p p1 p2 : pool) (s : List Nat) (a : Nat)
    (hcap : p.fill ≤ p.size) (hsz : p.size < U32) (hs : nul_free s)
    (hp : pool_push fuel h p s = some (p1, a)) (hseq : pool_pushes p1 p2)
    (hr : p2.fill ≤ 2 ^ 31) :
    read_str p2.buffer (p2.size - a) a = some s := by
  have hlen := strlen_of_nul_free s hs
  have hstr := c_str_of_nul_free s hs
  obtain ⟨e1, e2, e3, e4⟩ := pool_push_ret fuel h p p1 s a hp hsz (by omega)
  obtain ⟨i1, i2, i3⟩ := pool_pushes_inv p1 p2 hseq e3 e4
  obtain ⟨-, -, b3⟩ := pool_push_bytes fuel h p p1 s a hp (by omega)
  have hb := pool_pushes_bytes p1 p2 hseq e3 e4 hr
  rw [hlen] at e2 b3
  rw [hstr] at b3
  subst e1
  apply read_str_stored _ s _ _ hs (by omega)
  intro k hk
  rw [hb _ (by omega)]
  exact b3 k hk

/-- Witness for C5: `dog` is pushed into the empty pool, `cat` after it. -/
theorem pool_handle_stable_witness :
    pool_push 32 heap0 POOL_INIT [100, 111, 103] = some (pool_dog, 0) ∧
      pool_pushes pool_dog pool_dog_cat ∧
      read_str pool_dog_cat.buffer (pool_dog_cat.size - 0) 0 = some [100, 111, 103] :=
  ⟨rfl, pool_pushes.step pool_dog pool_dog_cat 32 heap0 [99, 97, 116] 4 pool_pushes.refl
      (by decide) rfl,
    pool_handle_stable 32 heap0 POOL_INIT pool_dog pool_dog_cat [100, 111, 103] 0 (by decide)
      (by decide) (by decide) rfl
      (pool_pushes.step pool_dog pool_dog_cat 32 heap0 [99, 97, 116] 4 pool_pushes.refl
        (by decide) rfl)
      (by decide)⟩

/-- Counterexample to C5 as stated: in a pool of 3221225471 bytes of which
3221225456 are used, `a` is pushed and gets the handle 3221225456; the next
push, of twenty `b`, doubles the 32-bit size to 2147483646 (a shrinking
`realloc`) and then to 4294967292; afterwards the string read at the handle
is not `a`. -/
theorem pool_handle_lost :
    pool_3g.fill ≤ pool_3g.size ∧ nul_free [97] ∧ nul_free (List.replicate 20 98) ∧
    (pool_push 0 heap0 pool_3g [97]).bind (fun r =>
      (pool_push 2 heap0 r.1 (List.replicate 20 98)).map (fun r2 =>
        (r.2, read_str r2.1.buffer (r2.1.size - r.2) r.2))) =
      some (3221225456, some (170 :: 170 :: List.replicate 20 98)) := by
  decide

/-! ## Claims about the node store -/

/-- C2, the failing input: the one-node document that `db_load` builds from
the saved initial document (count 1, capacity 1) is split at index 0.  Node 0
was the Answer `elephant`; afterwards node 0 is the Question with `yes = 1`
and `no = 2`, but the second append reallocated the array before reading the
record through its pointer, so node 2 holds what the released storage holds:
it is not an Answer and its text is not `elephant`. -/
theorem db_split_stale_copy :
    doc_loaded.count = 1 ∧ doc_loaded.max = 1 ∧ (doc_loaded.nodes 0).type = ANSWER ∧
    db_string doc_loaded (doc_loaded.nodes 0).text = some (bytes "elephant") ∧
    (db_split 32 heap0 doc_loaded 0 trunk dog).map
        (fun d => (d.count, d.nodes 0, d.nodes 1, d.nodes 2)) =
      some (3, ⟨QUESTION, 13, 1, 2⟩, ⟨ANSWER, 9, 0, 0⟩,
        ⟨4294967295, 4294967295, 4294967295, 4294967295⟩) ∧
    (db_split 32 heap0 doc_loaded 0 trunk dog).bind (fun d => db_string d (d.nodes 2).text) =
      none := by
  decide

/-- C6: the document built when no database file exists has one node, its
node 0 is an Answer with text handle 0, the handle resolves to `elephant`, and
the pool fill is 9. -/
theorem main_init_document (fuel : Nat) (h : heap) (hfuel : 1 ≤ fuel) :
    ∃ d, main_init fuel h = some d ∧ d.count = 1 ∧ (d.nodes 0).type = ANSWER ∧
      (d.nodes 0).text = 0 ∧ db_string d 0 = some (bytes "elephant") ∧ d.pool.fill = 9 := by
  have hb : bytes "elephant" = [101, 108, 101, 112, 104, 97, 110, 116] := by decide
  have hl : strlen (bytes "elephant") = 8 := by decide
  have hc : c_str (bytes "elephant") = [101, 108, 101, 112, 104, 97, 110, 116] := by decide
  have hg : pool_grow h (0 + (8 + 1)) fuel POOL_INIT =
      some (pool_grow_step h POOL_INIT) := by
    cases fuel with
    | zero => omega
    | succ n =>
      cases n with
      | zero => simp [pool_grow, pool_grow_step, POOL_INIT]
      | succ m => simp [pool_grow, pool_grow_step, POOL_INIT]
  have hm : main_init fuel h = some ⟨16, 1,
      Function.update DB_INIT.nodes 0 ⟨ANSWER, 0, 0, 0⟩,
      ⟨4096, 9, strcpy (pool_grow_step h POOL_INIT).buffer 0 (bytes "elephant")⟩⟩ := by
    unfold main_init pool_push
    simp only [DB_INIT, hl, show POOL_INIT.fill = 0 from rfl, hg]
    simp only [db_push, pushed, pool_grow_step, POOL_INIT, U32_eq]
    norm_num
  refine ⟨_, hm, rfl, ?_, ?_, ?_, rfl⟩
  · simp [Function.update]
  · simp [Function.update]
  · simp only [db_string]
    apply read_str_stored
    · rw [hb]; decide
    · rw [hb]; decide
    · intro k hk
      simp only [strcpy, hl, hc]
      rw [hb] at hk ⊢
      rw [if_pos (by simpa using hk)]
      simp

/-- Witness for C6: one unit of fuel. -/
theorem main_init_document_witness :
    ∃ d, main_init 1 heap0 = some d ∧ d.count = 1 ∧ (d.nodes 0).type = ANSWER ∧
      (d.nodes 0).text = 0 ∧ db_string d 0 = some (bytes "elephant") ∧ d.pool.fill = 9 :=
  main_init_document 1 heap0 (by decide)

/-! ## Serialisation -/

theorem db_save_loop_eq (d : db) :
    ∀ k i, db_save_loop d k i = (List.range' i k).flatMap (fun j => save_node (d.nodes j)) := by
  intro k
  induction k with
  | zero => intro i; rfl
  | succ k ih =>
    intro i
    rw [db_save_loop, ih, List.range'_succ, List.flatMap_cons]

theorem save_node_eq_layout (n : node) (hn : n.type = QUESTION ∨ n.type = ANSWER) :
    save_node n = layout_node n := by
  rcases hn with hn | hn <;> simp [save_node, layout_node, hn, QUESTION, ANSWER]

theorem layout_node_length (n : node) (hn : n.type = QUESTION ∨ n.type = ANSWER) :
    (layout_node n).length =
      13 * (if n.type = QUESTION then 1 else 0) + 5 * (if n.type = ANSWER then 1 else 0) := by
  rcases hn with hn | hn <;> simp [layout_node, le32, hn, QUESTION, ANSWER]

theorem layout_records_length (d : db) :
    ∀ k i, (∀ j, i ≤ j → j < i + k → (d.nodes j).type = QUESTION ∨ (d.nodes j).type = ANSWER) →
      ((List.range' i k).flatMap (fun j => layout_node (d.nodes j))).length =
        13 * (List.range' i k).countP (fun j => decide ((d.nodes j).type = QUESTION)) +
        5 * (List.range' i k).countP (fun j => decide ((d.nodes j).type = ANSWER)) := by
  intro k
  induction k with
  | zero => intro i _; rfl
  | succ k ih =>
    intro i hk
    rw [List.range'_succ, List.flatMap_cons, List.length_append, List.countP_cons,
      List.countP_cons, ih (i + 1) (fun j h1 h2 => hk j (by omega) (by omega)),
      layout_node_length _ (hk i (le_refl _) (by omega))]
    simp only [decide_eq_true_eq]
    ring

/-- For a document whose nodes are Questions or Answers the kind bytes are 0
and 1: the bytes of `db_save` are the file as the format description words
it, of length `8 + 13 * #Questions + 5 * #Answers + fill`. -/
theorem db_save_layout_kinds (d : db)
    (hkind : ∀ i, i < d.count → (d.nodes i).type = QUESTION ∨ (d.nodes i).type = ANSWER) :
    db_save d = layout_file d ∧
    (db_save d).length =
      8 + 13 * (List.range d.count).countP (fun i => decide ((d.nodes i).type = QUESTION)) +
        5 * (List.range d.count).countP (fun i => decide ((d.nodes i).type = ANSWER)) +
        d.pool.fill := by
  have hrec : (List.range d.count).flatMap (fun i => save_node (d.nodes i)) =
      (List.range d.count).flatMap (fun i => layout_node (d.nodes i)) := by
    apply List.flatMap_congr
    intro i hi
    exact save_node_eq_layout _ (hkind i (List.mem_range.mp hi))
  have hfile : db_save d = layout_file d := by
    unfold db_save layout_file pool_save
    rw [db_save_loop_eq, ← List.range_eq_range', hrec]
    simp only [List.append_assoc]
  refine ⟨hfile, ?_⟩
  rw [hfile]
  unfold layout_file
  have hlen := layout_records_length d d.count 0 (fun j _ h2 => hkind j (by omega))
  rw [← List.range_eq_range'] at hlen
  simp only [List.length_append, hlen, List.length_map, List.length_range]
  simp only [le32, List.length_cons, List.length_nil]
  omega

theorem save_node_length (n : node) :
    (save_node n).length =
      13 * (if n.type = QUESTION then 1 else 0) + 5 * (if n.type ≠ QUESTION then 1 else 0) := by
  by_cases hn : n.type = QUESTION <;> simp [save_node, le32, hn]

theorem save_records_length (d : db) :
    ∀ k i, ((List.range' i k).flatMap (fun j => save_node (d.nodes j))).length =
        13 * (List.range' i k).countP (fun j => decide ((d.nodes j).type = QUESTION)) +
        5 * (List.range' i k).countP (fun j => decide ((d.nodes j).type ≠ QUESTION)) := by
  intro k
  induction k with
  | zero => intro i; rfl
  | succ k ih =>
    intro i
    rw [List.range'_succ, List.flatMap_cons, List.length_append, List.countP_cons,
      List.countP_cons, ih (i + 1), save_node_length]
    simp only [decide_eq_true_eq]
    ring

/-- C7 (as amended): for every document, the bytes written by `db_save` are
exactly the count as four little-endian bytes, then for each node in index
order one kind byte (the low byte of the kind: 0 for a Question, 1 for an
Answer), the text handle as four little-endian bytes and, only for a
Question, `yes` then `no` as four little-endian bytes each, then the pool
fill as four little-endian bytes, then the first `fill` bytes of the pool.
The length is `8 + 13 * #Questions + 5 * #(nodes that are not Questions) +
fill`; when every node is a Question or an Answer the bytes are the file as
the format description words it and the length is
`8 + 13 * #Questions + 5 * #Answers + fill`. -/
theorem db_save_bytes (d : db) :
    db_save d =
      le32 d.count ++
        (List.range d.count).flatMap (fun i =>
          [(d.nodes i).type % 256] ++ le32 (d.nodes i).text ++
            (if (d.nodes i).type = QUESTION then
              le32 (d.nodes i).yes ++ le32 (d.nodes i).no else [])) ++
        le32 d.pool.fill ++ (List.range d.pool.fill).map d.pool.buffer ∧
    (QUESTION % 256 = 0 ∧ ANSWER % 256 = 1) ∧
    (db_save d).length =
      8 + 13 * (List.range d.count).countP (fun i => decide ((d.nodes i).type = QUESTION)) +
        5 * (List.range d.count).countP (fun i => decide ((d.nodes i).type ≠ QUESTION)) +
        d.pool.fill ∧
    ((∀ i, i < d.count → (d.nodes i).type = QUESTION ∨ (d.nodes i).type = ANSWER) →
      db_save d = layout_file d ∧
      (db_save d).length =
        8 + 13 * (List.range d.count).countP (fun i => decide ((d.nodes i).type = QUESTION)) +
          5 * (List.range d.count).countP (fun i => decide ((d.nodes i).type = ANSWER)) +
          d.pool.fill) := by
  have hfile : db_save d =
      le32 d.count ++ (List.range d.count).flatMap (fun i => save_node (d.nodes i)) ++
        le32 d.pool.fill ++ (List.range d.pool.fill).map d.pool.buffer := by
    unfold db_save pool_save
    rw [db_save_loop_eq, ← List.range_eq_range']
    simp only [List.append_assoc]
  refine ⟨hfile, ⟨by decide, by decide⟩, ?_, fun hkind => db_save_layout_kinds d hkind⟩
  rw [hfile]
  have hlen := save_records_length d d.count 0
  rw [← List.range_eq_range'] at hlen
  simp only [List.length_append, hlen, List.length_map, List.length_range]
  simp only [le32, List.length_cons, List.length_nil]
  omega

/-- Witness for C7: the three-node document (a Question and two Answers)
writes 66 bytes, the file as the format description words it; the document
loaded from a file with the kind byte 7 writes 15 bytes. -/
theorem db_save_bytes_witness :
    (db_save doc3 = layout_file doc3 ∧
      (db_save doc3).length =
        8 + 13 * (List.range doc3.count).countP (fun i => decide ((doc3.nodes i).type = QUESTION)) +
          5 * (List.range doc3.count).countP (fun i => decide ((doc3.nodes i).type = ANSWER)) +
          doc3.pool.fill) ∧
    (db_save doc3).length = 66 ∧
    (db_save doc_kind7).length =
      8 + 13 * (List.range doc_kind7.count).countP
          (fun i => decide ((doc_kind7.nodes i).type = QUESTION)) +
        5 * (List.range doc_kind7.count).countP
          (fun i => decide ((doc_kind7.nodes i).type ≠ QUESTION)) +
        doc_kind7.pool.fill ∧
    (db_save doc_kind7).length = 15 :=
  ⟨(db_save_bytes doc3).2.2.2 (by decide), by decide, (db_save_bytes doc_kind7).2.2.1,
    by decide⟩

/-- Counterexample to C7 as stated: the document that `db_load` builds from a
file of one node with the kind byte 7 has a node that is neither a Question
nor an Answer.  `db_save` writes the kind byte 7 and a record of five bytes,
15 bytes in all: not the kind byte 0 or 1 of the format description, and not
the length `8 + 13 * 0 + 5 * 0 + 2 = 10` that the formula gives for no
Question and no Answer. -/
theorem db_save_kind7 :
    db_load heap0 file_kind7 = some (doc_kind7, []) ∧ (doc_kind7.nodes 0).type = 7 ∧
    db_save doc_kind7 = file_kind7 ∧ db_save doc_kind7 ≠ layout_file doc_kind7 ∧
    (db_save doc_kind7).length = 15 ∧
    8 + 13 * (List.range doc_kind7.count).countP
        (fun i => decide ((doc_kind7.nodes i).type = QUESTION)) +
      5 * (List.range doc_kind7.count).countP
        (fun i => decide ((doc_kind7.nodes i).type = ANSWER)) +
      doc_kind7.pool.fill = 10 :=
  ⟨rfl, by decide, by decide, by decide, by decide, by decide⟩

theorem rd32_le32 (x : Nat) (rest : List Nat) (hx : x < U32) :
    rd32 (le32 x ++ rest) = some (x, rest) := by
  simp only [le32, rd32, List.cons_append, List.nil_append, Option.some.injEq, Prod.mk.injEq,
    and_true]
  rw [U32_eq] at hx
  omega

/-- Reading back the node records that the loop of `db_save` wrote: the kind
and the text of every node, and the children of every Question, are those of
the saved document. -/
theorem db_load_loop_save (d : db) (rest : List Nat) :
    ∀ (k i : Nat) (nodes : Nat → node),
      (∀ j, i ≤ j → j < i + k → (d.nodes j).type < 256 ∧ (d.nodes j).text < U32 ∧
        (d.nodes j).yes < U32 ∧ (d.nodes j).no < U32) →
      ∃ nodes', db_load_loop k i nodes (db_save_loop d k i ++ rest) = some (nodes', rest) ∧
        (∀ j, j < i → nodes' j = nodes j) ∧
        (∀ j, i ≤ j → j < i + k → (nodes' j).type = (d.nodes j).type ∧
          (nodes' j).text = (d.nodes j).text ∧
          ((d.nodes j).type = QUESTION →
            (nodes' j).yes = (d.nodes j).yes ∧ (nodes' j).no = (d.nodes j).no)) := by
  intro k
  induction k with
  | zero =>
    intro i nodes _
    exact ⟨nodes, rfl, fun _ _ => rfl, fun j h1 h2 => by omega⟩
  | succ k ih =>
    intro i nodes hwf
    obtain ⟨ht, hx, hy, hn⟩ := hwf i (le_refl _) (by omega)
    have hmod : (d.nodes i).type % 256 = (d.nodes i).type := Nat.mod_eq_of_lt ht
    by_cases hq : (d.nodes i).type = QUESTION
    · obtain ⟨nodes', h1, h2, h3⟩ := ih (i + 1)
        (Function.update nodes i ⟨(d.nodes i).type, (d.nodes i).text, (d.nodes i).yes,
          (d.nodes i).no⟩) (fun j a b => hwf j (by omega) (by omega))
      refine ⟨nodes', ?_, ?_, ?_⟩
      · have e : db_save_loop d (k + 1) i ++ rest = (d.nodes i).type ::
            (le32 (d.nodes i).text ++ (le32 (d.nodes i).yes ++ (le32 (d.nodes i).no ++
              (db_save_loop d k (i + 1) ++ rest)))) := by
          simp only [db_save_loop, save_node, hmod, if_pos hq, List.append_assoc,
            List.singleton_append, List.cons_append, List.nil_append]
        rw [e, db_load_loop]
        simp only [rd32_le32 _ _ hx, rd32_le32 _ _ hy, rd32_le32 _ _ hn, if_pos hq]
        exact h1
      · intro j hj
        rw [h2 j (by omega), Function.update_noteq (by omega)]
      · intro j hj1 hj2
        by_cases hji : j = i
        · subst hji
          rw [h2 j (by omega), Function.update_same]
          exact ⟨rfl, rfl, fun _ => ⟨rfl, rfl⟩⟩
        · exact h3 j (by omega) (by omega)
    · obtain ⟨nodes', h1, h2, h3⟩ := ih (i + 1)
        (Function.update nodes i ⟨(d.nodes i).type, (d.nodes i).text, (nodes i).yes,
          (nodes i).no⟩) (fun j a b => hwf j (by omega) (by omega))
      refine ⟨nodes', ?_, ?_, ?_⟩
      · have e : db_save_loop d (k + 1) i ++ rest = (d.nodes i).type ::
            (le32 (d.nodes i).text ++ (db_save_loop d k (i + 1) ++ rest)) := by
          simp only [db_save_loop, save_node, hmod, if_neg hq, List.append_assoc,
            List.singleton_append, List.nil_append, List.cons_append]
        rw [e, db_load_loop]
        simp only [rd32_le32 _ _ hx, if_neg hq]
        exact h1
      · intro j hj
        rw [h2 j (by omega), Function.update_noteq (by omega)]
      · intro j hj1 hj2
        by_cases hji : j = i
        · subst hji
          rw [h2 j (by omega), Function.update_same]
          exact ⟨rfl, rfl, fun h => absurd h hq⟩
        · exact h3 j (by omega) (by omega)

/-- The round trip for a document whose kinds fit a byte and whose handles,
children, count and fill are 32-bit values: `db_load` applied to the bytes of
`db_save` consumes them all and yields the same count, at every index the same
kind and text handle, for every Question the same children, the same fill and
the same pool bytes below the fill. -/
theorem db_load_save (h : heap) (d : db) (hcount : d.count < U32) (hfill : d.pool.fill < U32)
    (hwf : ∀ j, j < d.count → (d.nodes j).type < 256 ∧ (d.nodes j).text < U32 ∧
      (d.nodes j).yes < U32 ∧ (d.nodes j).no < U32) :
    ∃ d', db_load h (db_save d) = some (d', []) ∧ d'.count = d.count ∧
      (∀ j, j < d.count → (d'.nodes j).type = (d.nodes j).type ∧
        (d'.nodes j).text = (d.nodes j).text ∧
        ((d.nodes j).type = QUESTION →
          (d'.nodes j).yes = (d.nodes j).yes ∧ (d'.nodes j).no = (d.nodes j).no)) ∧
      d'.pool.fill = d.pool.fill ∧
      (∀ k, k < d.pool.fill → d'.pool.buffer k = d.pool.buffer k) := by
  obtain ⟨nodes', h1, -, h3⟩ := db_load_loop_save d (pool_save d.pool) d.count 0 h.cell
    (fun j _ b => hwf j (by omega))
  have hp : pool_load h (pool_save d.pool) =
      some (⟨d.pool.fill, d.pool.fill,
        fun i => if i < d.pool.fill then ((List.range d.pool.fill).map d.pool.buffer).getD i 0
          else h.byte i⟩, []) := by
    unfold pool_load pool_save
    rw [rd32_le32 _ _ hfill]
    simp
  refine ⟨⟨d.count, d.count, nodes', ⟨d.pool.fill, d.pool.fill,
    fun i => if i < d.pool.fill then ((List.range d.pool.fill).map d.pool.buffer).getD i 0
      else h.byte i⟩⟩, ?_, rfl, ?_, rfl, ?_⟩
  · unfold db_load db_save
    rw [List.append_assoc, rd32_le32 _ _ hcount]
    simp only [h1, hp]
  · intro j hj
    exact h3 j (by omega) (by omega)
  · intro k hk
    simp only [if_pos hk]
    rw [List.getD_eq_getElem _ _ (by simpa using hk)]
    simp only [List.getElem_map, List.getElem_range]

/-! ## Documents of the game -/

/-- Valid child indices survive a split in which the record copied to the new
slot is the node at `i`, that is, when the second append does not reallocate
the array or the released storage still holds the node. -/
theorem children_valid_split (fuel : Nat) (h : heap) (d d' : db) (i : Nat)
    (question animal : List Nat)
    (hi : i < d.count) (hcm : d.count ≤ d.max) (hmax : d.max < U32)
    (hroom : d.max < 2 ^ 31 ∨ d.count + 2 ≤ d.max)
    (hcap : d.pool.fill ≤ d.pool.size) (hsz : d.pool.size < U32)
    (hr : d.pool.fill + (strlen animal + 1) + (strlen question + 1) ≤ 2 ^ 31)
    (hfuel : 32 ≤ fuel)
    (hcopy : d.count + 1 ≠ (if d.count = d.max then d.max * 2 else d.max) ∨
      h.cell i = d.nodes i)
    (hv : children_valid d) (hd : db_split fuel h d i question animal = some d') :
    children_valid d' := by
  obtain ⟨d2, hd2, e1, -, -, e4, -⟩ :=
    db_split_spec fuel h d i question animal hi hcm hmax hroom hcap hsz hr hfuel
  rw [hd] at hd2
  obtain rfl : d' = d2 := by simpa using hd2
  have hnew : (if d.count + 1 = (if d.count = d.max then d.max * 2 else d.max)
      then h.cell i else d.nodes i) = d.nodes i := by
    rcases hcopy with hc | hc
    · rw [if_neg hc]
    · rw [hc, ite_self]
  intro j hj hq
  rw [e1] at hj ⊢
  rw [e4, hnew] at hq ⊢
  by_cases hji : j = i
  · subst hji
    rw [Function.update_same]
    simp only
    omega
  · rw [Function.update_noteq hji] at hq ⊢
    by_cases hj1 : j = d.count + 1
    · subst hj1
      rw [Function.update_same] at hq ⊢
      have := hv i hi hq
      omega
    · rw [Function.update_noteq hj1] at hq ⊢
      by_cases hj0 : j = d.count
      · subst hj0
        rw [Function.update_same] at hq
        simp [ANSWER, QUESTION] at hq
      · rw [Function.update_noteq hj0] at hq ⊢
        have := hv j (by omega) hq
        omega

theorem reachable_doc_init : reachable doc_init :=
  reachable.init 1 heap0 doc_init rfl

/-- A wrong guess at the last node of a document of the game gives a document
of the game. -/
theorem reachable_split_last (h : heap) (d : db) (hr : reachable d) (hpos : 0 < d.count)
    (hans : (d.nodes (d.count - 1)).type = ANSWER)
    (hsome : (db_split 32 h d (d.count - 1) trunk dog).isSome = true) :
    reachable (split_last h d) := by
  obtain ⟨d', hd'⟩ := Option.isSome_iff_exists.mp hsome
  have e : split_last h d = d' := by
    unfold split_last; rw [hd']; rfl
  rw [e]
  exact reachable.split 32 h d d' (d.count - 1) trunk dog hr (by omega) hans (by decide)
    (by decide) hd'

set_option maxRecDepth 100000 in
/-- C1, the failing input: eight wrong guesses on the initial document.  The
eighth split appends into the full array of 16 entries; the record copied to
slot 16 is read from the released array and has the kind 4294967295.
`db_save` writes the low byte of the kind, and the document that `db_load`
builds has the kind 255 at index 16: not the same kind. -/
theorem db_load_save_kind_differs :
    reachable (doc17 heap0) ∧ (doc17 heap0).count = 17 ∧
    ((doc17 heap0).nodes 16).type = 4294967295 ∧
    (db_load heap0 (db_save (doc17 heap0))).map
        (fun r => (r.1.count, (r.1.nodes 16).type, r.2)) = some (17, 255, []) := by
  refine ⟨?_, by decide, by decide, by decide⟩
  unfold doc17 doc15
  iterate 8 (refine reachable_split_last _ _ ?_ (by decide) (by decide) (by decide))
  exact reachable_doc_init

/-- C9, the failing input: eight wrong guesses on the initial document.  The
eighth split appends into the full array of 16 entries; the record copied to
slot 16 is read from the released array.  When that storage holds a record of
kind 0 with child fields 4096, node 16 of the resulting document is a
Question whose `yes` and `no` are not below the count 17, and it is the `no`
child of node 14. -/
theorem child_index_out_of_range :
    reachable (doc17 heap_far) ∧ (doc17 heap_far).count = 17 ∧
    edge (doc17 heap_far) 14 16 ∧
    ((doc17 heap_far).nodes 16).type = QUESTION ∧
    ¬ ((doc17 heap_far).nodes 16).yes < (doc17 heap_far).count ∧
    ¬ ((doc17 heap_far).nodes 16).no < (doc17 heap_far).count := by
  refine ⟨?_, by decide, by decide, by decide, by decide, by decide⟩
  unfold doc17 doc15
  iterate 8 (refine reachable_split_last _ _ ?_ (by decide) (by decide) (by decide))
  exact reachable_doc_init

/-- C10, the failing input: eight wrong guesses on the initial document.  The
eighth split appends into the full array of 16 entries; the record copied to
slot 16 is read from the released array.  When that storage reads as zeros,
node 16 is a Question whose children are both index 0, and the references
`0, 2, 4, ..., 14, 16, 0` form a cycle through the root. -/
theorem tree_has_cycle :
    reachable (doc17 heap_zero) ∧ (doc17 heap_zero).count = 17 ∧
    (∀ p ∈ [(0, 2), (2, 4), (4, 6), (6, 8), (8, 10), (10, 12), (12, 14), (14, 16), (16, 0)],
      edge (doc17 heap_zero) p.1 p.2) := by
  refine ⟨?_, by decide, by decide⟩
  unfold doc17 doc15
  iterate 8 (refine reachable_split_last _ _ ?_ (by decide) (by decide) (by decide))
  exact reachable_doc_init

/-- Stored-string handles survive a split in which the record copied to the
new slot is the node at `i`, that is, when the second append does not
reallocate the array or the released storage still holds the node. -/
theorem handles_ok_split (fuel : Nat) (h : heap) (d d' : db) (i : Nat)
    (question animal : List Nat)
    (hi : i < d.count) (hcm : d.count ≤ d.max) (hmax : d.max < U32)
    (hroom : d.max < 2 ^ 31 ∨ d.count + 2 ≤ d.max)
    (hcap : d.pool.fill ≤ d.pool.size) (hsz : d.pool.size < U32)
    (hr : d.pool.fill + (strlen animal + 1) + (strlen question + 1) ≤ 2 ^ 31)
    (hfuel : 32 ≤ fuel)
    (hcopy : d.count + 1 ≠ (if d.count = d.max then d.max * 2 else d.max) ∨
      h.cell i = d.nodes i)
    (hv : handles_ok d) (hd : db_split fuel h d i question animal = some d') :
    handles_ok d' := by
  obtain ⟨d2, hd2, e1, -, -, e4, e5, -, -, -, e9, e10, e11⟩ :=
    db_split_spec fuel h d i question animal hi hcm hmax hroom hcap hsz hr hfuel
  rw [hd] at hd2
  obtain rfl : d' = d2 := by simpa using hd2
  have hnew : (if d.count + 1 = (if d.count = d.max then d.max * 2 else d.max)
      then h.cell i else d.nodes i) = d.nodes i := by
    rcases hcopy with hc | hc
    · rw [if_neg hc]
    · rw [hc, ite_self]
  rw [hnew] at e4
  have hza : d'.pool.buffer (d.pool.fill + strlen animal) = 0 := by
    rw [e10 _ (le_refl _)]
    exact List.getD_eq_default _ _ (le_refl _)
  have hzq : d'.pool.buffer (d.pool.fill + strlen animal + 1 + strlen question) = 0 := by
    rw [e11 _ (le_refl _)]
    exact List.getD_eq_default _ _ (le_refl _)
  obtain ⟨hall, hend⟩ := hv
  have hold : ∀ a, handle_ok d a → handle_ok d' a := by
    rintro a ⟨h1, h2, k, hk1, hk2, hk3⟩
    refine ⟨by omega, ?_, k, by omega, hk2, by rw [e9 k hk1]; exact hk3⟩
    rcases h2 with h2 | h2
    · exact Or.inl h2
    · by_cases ha : a = 0
      · exact Or.inl ha
      · exact Or.inr (by rw [e9 _ (by omega)]; exact h2)
  refine ⟨?_, Or.inr ?_⟩
  · intro j hj
    rw [e1] at hj
    rw [e4]
    by_cases hji : j = i
    · subst hji
      rw [Function.update_same]
      refine ⟨by simp only; omega, Or.inr ?_, d.pool.fill + strlen animal + 1 + strlen question,
        by omega, by simp only; omega, hzq⟩
      simp only [Nat.add_sub_cancel]
      exact hza
    · rw [Function.update_noteq hji]
      by_cases hj1 : j = d.count + 1
      · subst hj1
        rw [Function.update_same]
        exact hold _ (hall i hi)
      · rw [Function.update_noteq hj1]
        by_cases hj0 : j = d.count
        · subst hj0
          rw [Function.update_same]
          refine ⟨by simp only; omega, ?_, d.pool.fill + strlen animal, by omega,
            by simp only; omega, hza⟩
          simp only
          rcases hend with hend | hend
          · exact Or.inl hend
          · by_cases hf : d.pool.fill = 0
            · exact Or.inl hf
            · exact Or.inr (by rw [e9 _ (by omega)]; exact hend)
        · rw [Function.update_noteq hj0]
          exact hold _ (hall j (by omega))
  · rw [e5]
    have e : d.pool.fill + (strlen animal + 1) + (strlen question + 1) - 1 =
        d.pool.fill + strlen animal + 1 + strlen question := by omega
    rw [e]
    exact hzq

/-- C11, the failing input: eight wrong guesses on the initial document.  The
eighth split appends into the full array of 16 entries; the record copied to
slot 16 is read from the released array.  With the all-ones record found
there, the text handle of node 16 is 4294967295: it is not below the pool
fill 217, so it is no offset that `pool_push` returned. -/
theorem handle_fabricated :
    reachable (doc17 heap0) ∧ (doc17 heap0).count = 17 ∧ (doc17 heap0).pool.fill = 217 ∧
    ((doc17 heap0).nodes 16).text = 4294967295 ∧
    ¬ handle_ok (doc17 heap0) ((doc17 heap0).nodes 16).text := by
  have hf : (doc17 heap0).pool.fill = 217 := by decide
  have ht : ((doc17 heap0).nodes 16).text = 4294967295 := by decide
  refine ⟨?_, by decide, hf, ht, ?_⟩
  · unfold doc17 doc15
    iterate 8 (refine reachable_split_last _ _ ?_ (by decide) (by decide) (by decide))
    exact reachable_doc_init
  · intro hok
    have := hok.1
    rw [hf, ht] at this
    omega

/-- C19, the failing input: eight wrong guesses on the initial document.  The
eighth split appends into the full array of 16 entries; the record copied to
slot 16 is read from the released array.  When that storage reads as zeros,
node 16 is a Question whose children are both index 0: the walk that answers
NO nine times looks up the indices `0, 2, ..., 16` and then 0 again, where it
stands at a Question after nine moves, more than `(17 - 1) / 2 = 8`. -/
theorem walk_revisits_root :
    reachable (doc17 heap_zero) ∧ (doc17 heap_zero).count = 17 ∧
    walk (doc17 heap_zero) 0 (List.replicate 9 false) =
      [0, 2, 4, 6, 8, 10, 12, 14, 16, 0] ∧
    ((doc17 heap_zero).nodes 0).type = QUESTION := by
  refine ⟨?_, by decide, by decide, by decide⟩
  unfold doc17 doc15
  iterate 8 (refine reachable_split_last _ _ ?_ (by decide) (by decide) (by decide))
  exact reachable_doc_init

/-! ## Capacity and growth -/

/-- A push that returns leaves the fill within the size. -/
theorem pool_push_cap (fuel : Nat) (h : heap) (p p' : pool) (s : List Nat) (a : Nat)
    (hp : pool_push fuel h p s = some (p', a)) : p'.fill ≤ p'.size := by
  unfold pool_push at hp
  simp only at hp
  split at hp
  · exact absurd hp (by simp)
  next p1 hg =>
    obtain ⟨h1, h2, -⟩ := pool_grow_ret h _ fuel p p1 hg
    simp only [Option.some.injEq, Prod.mk.injEq] at hp
    obtain ⟨hp1, -⟩ := hp
    subst hp1
    show (p1.fill + (strlen s + 1)) % U32 ≤ p1.size
    rw [h2]
    exact le_trans (Nat.mod_le _ _) h1

/-- An append that returns leaves the count within the capacity and does not
touch the pool. -/
theorem db_push_cap (h : heap) (d d' : db) (s : src) (a : Nat)
    (hp : db_push h d s = some (d', a)) : d'.count ≤ d'.max ∧ d'.pool = d.pool := by
  unfold db_push at hp
  by_cases hlt : d.count <
      (if d.count = d.max then (if d.max = 0 then 16 else (d.max * 2) % U32) else d.max)
  · rw [if_pos hlt] at hp
    simp only [Option.some.injEq, Prod.mk.injEq] at hp
    obtain ⟨hp1, -⟩ := hp
    subst hp1
    exact ⟨le_trans (Nat.mod_le _ _) (Nat.succ_le_of_lt hlt), rfl⟩
  · rw [if_neg hlt] at hp
    exact absurd hp (by simp)

/-- A split that returns leaves the capacity invariant in force. -/
theorem db_split_cap (fuel : Nat) (h : heap) (d d' : db) (i : Nat) (question animal : List Nat)
    (hd : db_split fuel h d i question animal = some d') : cap_inv d' := by
  unfold db_split at hd
  split at hd
  · cases hp1 : pool_push fuel h d.pool animal with
    | none => rw [hp1] at hd; exact absurd hd (by simp)
    | some r1 =>
      obtain ⟨p1, a⟩ := r1
      rw [hp1] at hd
      simp only at hd
      cases hp2 : pool_push fuel h p1 question with
      | none => rw [hp2] at hd; exact absurd hd (by simp)
      | some r2 =>
        obtain ⟨p2, q⟩ := r2
        rw [hp2] at hd
        simp only at hd
        cases hd1 : db_push h ⟨d.max, d.count, d.nodes, p2⟩ (src.val ⟨ANSWER, a, 0, 0⟩) with
        | none => rw [hd1] at hd; exact absurd hd (by simp)
        | some r3 =>
          obtain ⟨d1, y⟩ := r3
          rw [hd1] at hd
          simp only at hd
          cases hd2 : db_push h d1 (src.ref i) with
          | none => rw [hd2] at hd; exact absurd hd (by simp)
          | some r4 =>
            obtain ⟨d2, n⟩ := r4
            rw [hd2] at hd
            simp only [Option.some.injEq] at hd
            subst hd
            obtain ⟨c1, c2⟩ := db_push_cap h _ d1 _ y hd1
            obtain ⟨c3, c4⟩ := db_push_cap h d1 d2 _ n hd2
            have c5 := pool_push_cap fuel h p1 p2 question q hp2
            refine ⟨c3, ?_⟩
            simp only
            rw [c4, c2]
            exact c5
  · exact absurd hd (by simp)

/-- A load that returns builds a document whose capacity equals its count and
whose pool size equals its fill. -/
theorem db_load_cap (h : heap) (bs rest : List Nat) (d : db)
    (hd : db_load h bs = some (d, rest)) :
    d.max = d.count ∧ d.pool.size = d.pool.fill := by
  unfold db_load at hd
  split at hd
  · exact absurd hd (by simp)
  next count bs1 _ =>
    split at hd
    · exact absurd hd (by simp)
    next nodes bs2 _ =>
      split at hd
      · exact absurd hd (by simp)
      next p bs3 hp =>
        simp only [Option.some.injEq, Prod.mk.injEq] at hd
        obtain ⟨hd1, -⟩ := hd
        subst hd1
        refine ⟨rfl, ?_⟩
        simp only
        unfold pool_load at hp
        split at hp
        · exact absurd hp (by simp)
        next fill bs4 _ =>
          split at hp
          · simp only [Option.some.injEq, Prod.mk.injEq] at hp
            obtain ⟨hp1, -⟩ := hp
            subst hp1
            rfl
          · exact absurd hp (by simp)

/-- C15 (as amended): for every store with `count ≤ max < 2 ^ 32`, when the
store is full and its capacity is below `2 ^ 31`, after `db_push` the
capacity is twice the old capacity, or 16 when the old capacity was 0, hence
at least 16 when the old capacity was 0 or at least 8; when the store is not
full the capacity is unchanged. -/
theorem db_push_growth (h : heap) (d : db) (s : src) (hcm : d.count ≤ d.max)
    (hmax : d.max < U32) :
    (d.count = d.max → d.max < 2 ^ 31 →
      ∃ d' a, db_push h d s = some (d', a) ∧
        d'.max = (if d.max = 0 then 16 else 2 * d.max) ∧
        (d.max = 0 ∨ 8 ≤ d.max → 16 ≤ d'.max)) ∧
    (d.count < d.max → ∃ d' a, db_push h d s = some (d', a) ∧ d'.max = d.max) := by
  constructor
  · intro hfull hlt
    refine ⟨_, _, db_push_spec h d s hcm hmax (Or.inl hlt), ?_, ?_⟩
    · simp only [hfull, if_true]
      split <;> omega
    · intro h8
      simp only [hfull, if_true]
      split <;> omega
  · intro hlt
    refine ⟨_, _, db_push_spec h d s hcm hmax (Or.inr (by omega)), ?_⟩
    simp only
    rw [if_neg (by omega)]

/-- Witness for C15: the empty store, and the initial document. -/
theorem db_push_growth_witness :
    (∃ d' a, db_push heap0 DB_INIT (src.val ⟨ANSWER, 0, 0, 0⟩) = some (d', a) ∧
      d'.max = 16) ∧
    (∃ d' a, db_push heap0 doc_init (src.val ⟨ANSWER, 9, 0, 0⟩) = some (d', a) ∧
      d'.max = doc_init.max) :=
  ⟨by
    obtain ⟨d', a, h1, h2, -⟩ := (db_push_growth heap0 DB_INIT (src.val ⟨ANSWER, 0, 0, 0⟩)
      (by decide) (by decide)).1 (by decide) (by decide)
    exact ⟨d', a, h1, h2⟩,
   (db_push_growth heap0 doc_init (src.val ⟨ANSWER, 9, 0, 0⟩) (by decide) (by decide)).2
     (by decide)⟩

/-- Counterexample to C15 as stated: the store that `db_load` builds from the
saved initial document is full at a capacity of 1; after `db_push` its
capacity is 2, not at least 16.  And the store that is full at a capacity of
`2 ^ 31` gets the 32-bit capacity 0, not twice the old one, and `db_push`
stores outside the array. -/
theorem db_push_growth_small :
    (doc_loaded.count = 1 ∧ doc_loaded.max = 1 ∧
      (db_push heap0 doc_loaded (src.val ⟨ANSWER, 9, 0, 0⟩)).map (fun r => r.1.max) =
        some 2) ∧
    (doc_full.count = doc_full.max ∧ (doc_full.max * 2) % U32 = 0 ∧
      ∀ h s, db_push h doc_full s = none) := by
  refine ⟨by decide, rfl, by decide, ?_⟩
  intro h s
  exact db_push_wrap h doc_full s rfl (by decide) (by decide)

/-- The growth loop leaves a pool alone that is large enough. -/
theorem pool_grow_done (h : heap) (need fuel : Nat) (p : pool) (hp : need ≤ p.size) :
    pool_grow h need fuel p = some p := by
  cases fuel with
  | zero => unfold pool_grow; rw [if_neg (by omega)]
  | succ n => unfold pool_grow; rw [if_neg (by omega)]

/-- From a size that is not 0 and too small, the growth loop ends at the
first doubling of the size that fits the need. -/
theorem pool_grow_pow (h : heap) (need : Nat) (hneed : need ≤ 2 ^ 31) :
    ∀ (fuel : Nat) (p p' : pool), pool_grow h need fuel p = some p' →
      p.size ≠ 0 → p.size < need →
      ∃ k, 1 ≤ k ∧ p'.size = p.size * 2 ^ k ∧ p.size * 2 ^ (k - 1) < need ∧
        need ≤ p'.size := by
  intro fuel
  induction fuel with
  | zero =>
    intro p p' hp _ hlt
    unfold pool_grow at hp
    rw [if_pos (by omega)] at hp
    exact absurd hp (by simp)
  | succ fuel ih =>
    intro p p' hp h0 hlt
    unfold pool_grow at hp
    rw [if_pos (by omega)] at hp
    have hsz : (pool_grow_step h p).size = p.size * 2 := by
      simp only [pool_grow_step, U32_eq, if_neg h0]
      apply Nat.mod_eq_of_lt
      omega
    by_cases hfit : need ≤ (pool_grow_step h p).size
    · rw [pool_grow_done h need fuel _ hfit] at hp
      have : pool_grow_step h p = p' := by simpa using hp
      subst this
      refine ⟨1, le_refl _, by rw [hsz]; ring, by simpa using hlt, hfit⟩
    · obtain ⟨k, hk1, hk2, hk3, hk4⟩ := ih (pool_grow_step h p) p' hp (by rw [hsz]; omega)
        (by omega)
      refine ⟨k + 1, by omega, ?_, ?_, hk4⟩
      · rw [hk2, hsz, pow_succ]; ring
      · rw [hsz] at hk3
        have e : p.size * 2 ^ (k + 1 - 1) = p.size * 2 * 2 ^ (k - 1) := by
          obtain ⟨m, rfl⟩ : ∃ m, k = m + 1 := ⟨k - 1, by omega⟩
          simp only [Nat.add_sub_cancel, pow_succ]
          ring
        rw [e]
        exact hk3

/-- C14 (as amended): for every pool and every text whose insertion would
exceed the capacity while `fill + length + 1` is at most `2 ^ 31`,
`pool_push` returns and the new capacity fits `fill + length + 1`; when the
old capacity was not 0 it is the old capacity multiplied by a power of two,
the first such multiple (beyond the old capacity) that fits; when the old
capacity was 0 it is 4096 multiplied by a power of two, the first such value
that fits, hence at least 4096 bytes. -/
theorem pool_push_growth (fuel : Nat) (h : heap) (p : pool) (s : List Nat)
    (hgrow : p.size < p.fill + (strlen s + 1))
    (hr : p.fill + (strlen s + 1) ≤ 2 ^ 31) (hfuel : 32 ≤ fuel) :
    ∃ p' a, pool_push fuel h p s = some (p', a) ∧
      p.fill + (strlen s + 1) ≤ p'.size ∧
      (p.size ≠ 0 → ∃ k, 1 ≤ k ∧ p'.size = p.size * 2 ^ k ∧
        p.size * 2 ^ (k - 1) < p.fill + (strlen s + 1)) ∧
      (p.size = 0 → 4096 ≤ p'.size ∧ ∃ k, p'.size = 4096 * 2 ^ k ∧
        (k = 0 ∨ 4096 * 2 ^ (k - 1) < p.fill + (strlen s + 1))) := by
  obtain ⟨⟨p', a⟩, hp⟩ := pool_push_fuel fuel h p s (Or.inr ⟨by omega, hfuel⟩)
  have hg : ∃ p1, pool_grow h (p.fill + (strlen s + 1)) fuel p = some p1 ∧
      p'.size = p1.size := by
    unfold pool_push at hp
    simp only at hp
    split at hp
    · exact absurd hp (by simp)
    next p1 hg =>
      simp only [Option.some.injEq, Prod.mk.injEq] at hp
      obtain ⟨hp1, -⟩ := hp
      subst hp1
      exact ⟨p1, hg, rfl⟩
  obtain ⟨p1, hg1, hsz⟩ := hg
  obtain ⟨hfit, -, -⟩ := pool_grow_ret h _ fuel p p1 hg1
  refine ⟨p', a, hp, by rw [hsz]; exact hfit, ?_, ?_⟩
  · intro h0
    obtain ⟨k, hk1, hk2, hk3, -⟩ := pool_grow_pow h _ hr fuel p p1 hg1 h0 hgrow
    exact ⟨k, hk1, by rw [hsz]; exact hk2, hk3⟩
  · intro h0
    obtain ⟨n, rfl⟩ : ∃ n, fuel = n + 1 := ⟨fuel - 1, by omega⟩
    unfold pool_grow at hg1
    rw [if_pos (by omega)] at hg1
    have hs1 : (pool_grow_step h p).size = 4096 := by
      simp only [pool_grow_step, if_pos h0]
    by_cases hfit1 : p.fill + (strlen s + 1) ≤ (pool_grow_step h p).size
    · rw [pool_grow_done h _ n _ hfit1] at hg1
      have : pool_grow_step h p = p1 := by simpa using hg1
      subst this
      rw [hsz, hs1]
      exact ⟨le_refl _, 0, by norm_num, Or.inl rfl⟩
    · obtain ⟨k, hk1, hk2, hk3, -⟩ := pool_grow_pow h _ hr n (pool_grow_step h p) p1 hg1
        (by rw [hs1]; norm_num) (by omega)
      rw [hs1] at hk2 hk3
      rw [hsz, hk2]
      refine ⟨?_, k, rfl, Or.inr hk3⟩
      calc 4096 = 4096 * 1 := by norm_num
        _ ≤ 4096 * 2 ^ k := Nat.mul_le_mul_left _ (Nat.one_le_two_pow)

/-- Witness for C14: `dog` is pushed into the empty pool (capacity 0) and into
the pool of the reloaded initial document (capacity 9). -/
theorem pool_push_growth_witness :
    (∃ p' a, pool_push 32 heap0 POOL_INIT dog = some (p', a) ∧
      POOL_INIT.fill + (strlen dog + 1) ≤ p'.size ∧
      (POOL_INIT.size ≠ 0 → ∃ k, 1 ≤ k ∧ p'.size = POOL_INIT.size * 2 ^ k ∧
        POOL_INIT.size * 2 ^ (k - 1) < POOL_INIT.fill + (strlen dog + 1)) ∧
      (POOL_INIT.size = 0 → 4096 ≤ p'.size ∧ ∃ k, p'.size = 4096 * 2 ^ k ∧
        (k = 0 ∨ 4096 * 2 ^ (k - 1) < POOL_INIT.fill + (strlen dog + 1)))) ∧
    (∃ p' a, pool_push 32 heap0 doc_loaded.pool dog = some (p', a) ∧
      doc_loaded.pool.fill + (strlen dog + 1) ≤ p'.size ∧
      (doc_loaded.pool.size ≠ 0 → ∃ k, 1 ≤ k ∧ p'.size = doc_loaded.pool.size * 2 ^ k ∧
        doc_loaded.pool.size * 2 ^ (k - 1) < doc_loaded.pool.fill + (strlen dog + 1)) ∧
      (doc_loaded.pool.size = 0 → 4096 ≤ p'.size ∧ ∃ k, p'.size = 4096 * 2 ^ k ∧
        (k = 0 ∨ 4096 * 2 ^ (k - 1) < doc_loaded.pool.fill + (strlen dog + 1)))) :=
  ⟨pool_push_growth 32 heap0 POOL_INIT dog (by decide)
      (by
        have e : POOL_INIT.fill + (strlen dog + 1) = 4 := by decide
        rw [e]; norm_num)
      (by decide),
    pool_push_growth 32 heap0 doc_loaded.pool dog (by decide)
      (by
        have e : doc_loaded.pool.fill + (strlen dog + 1) = 13 := by decide
        rw [e]; norm_num)
      (by decide)⟩

/-- A push never returns when more than `2 ^ 31` bytes are needed and the size
is on the cycle `0, 4096, 8192, ..., 2 ^ 31`. -/
theorem pool_push_cycle (fuel : Nat) (h : heap) (p : pool) (s : List Nat)
    (hsz : p.size = 0 ∨ ∃ k, k ≤ 19 ∧ p.size = 4096 * 2 ^ k)
    (hneed : 2 ^ 31 < p.fill + (strlen s + 1)) : pool_push fuel h p s = none := by
  unfold pool_push
  simp only [pool_grow_cycle h _ hneed fuel p hsz]

/-- Counterexample to C14 as stated: the pool that `pool_load` builds for the
saved initial document has the capacity 9; pushing `dog` exceeds it, and
afterwards the capacity is 18, not at least 4096 bytes.  And with a pool that
holds `2 ^ 31` bytes in a block of `2 ^ 31` bytes, `pool_push` never returns,
so no capacity results. -/
theorem pool_push_growth_small :
    (doc_loaded.pool.size = 9 ∧ doc_loaded.pool.fill = 9 ∧
      (pool_push 32 heap0 doc_loaded.pool dog).map (fun r => r.1.size) = some 18) ∧
    (pool_2g.size < pool_2g.fill + (strlen dog + 1) ∧
      ¬ ∃ fuel h r, pool_push fuel h pool_2g dog = some r) := by
  refine ⟨by decide, by decide, ?_⟩
  rintro ⟨fuel, h, r, hr⟩
  rw [pool_push_cycle fuel h pool_2g dog (Or.inr ⟨19, le_refl _, by decide⟩) (by decide)] at hr
  exact absurd hr (by simp)

/-- C16 (as amended): for every pool and every nul-free text `s` with
`fill + length(s) + 1` at most `2 ^ 31`, the growth loop of `pool_push`
terminates (32 units of fuel are enough) and ends with a size of at least
`fill + length(s) + 1`, the fill untouched, and `pool_push` returns. -/
theorem pool_grow_terminates (fuel : Nat) (h : heap) (p : pool) (s : List Nat)
    (hs : nul_free s) (hr : p.fill + (s.length + 1) ≤ 2 ^ 31) (hfuel : 32 ≤ fuel) :
    ∃ p', pool_grow h (p.fill + (s.length + 1)) fuel p = some p' ∧
      p.fill + (s.length + 1) ≤ p'.size ∧ p'.fill = p.fill ∧
      ∃ r, pool_push fuel h p s = some r := by
  have hlen := strlen_of_nul_free s hs
  obtain ⟨r, hp⟩ := pool_push_fuel fuel h p s (Or.inr ⟨by rw [hlen]; omega, hfuel⟩)
  have hg : ∃ p1, pool_grow h (p.fill + (s.length + 1)) fuel p = some p1 := by
    unfold pool_push at hp
    simp only [hlen] at hp
    split at hp
    · exact absurd hp (by simp)
    next p1 hg => exact ⟨p1, hg⟩
  obtain ⟨p1, hg1⟩ := hg
  obtain ⟨h1, h2, -⟩ := pool_grow_ret h _ fuel p p1 hg1
  exact ⟨p1, hg1, h1, h2, r, hp⟩

/-- Witness for C16: `dog` and the empty pool. -/
theorem pool_grow_terminates_witness :
    ∃ p', pool_grow heap0 (POOL_INIT.fill + (dog.length + 1)) 32 POOL_INIT = some p' ∧
      POOL_INIT.fill + (dog.length + 1) ≤ p'.size ∧ p'.fill = POOL_INIT.fill ∧
      ∃ r, pool_push 32 heap0 POOL_INIT dog = some r :=
  pool_grow_terminates 32 heap0 POOL_INIT dog (by decide)
    (by
      have e : POOL_INIT.fill + (dog.length + 1) = 4 := by decide
      rw [e]; norm_num)
    (by decide)

/-- Counterexample to C16 as stated: the pool holds `2 ^ 31` bytes in a block
of `2 ^ 31` bytes (`fill ≤ size`, both 32-bit values) and the nul-free text
is `a`; the size runs through `0, 4096, ..., 2 ^ 31, 0, ...` and the growth
loop ends for no amount of fuel. -/
theorem pool_grow_never_ends :
    pool_2g.fill ≤ pool_2g.size ∧ pool_2g.size < U32 ∧ nul_free [97] ∧
    ¬ ∃ fuel h p', pool_grow h (pool_2g.fill + ([97].length + 1)) fuel pool_2g = some p' := by
  refine ⟨by decide, by decide, by decide, ?_⟩
  rintro ⟨fuel, h, p', hp⟩
  rw [pool_grow_cycle h _ (by decide) fuel pool_2g (Or.inr ⟨19, le_refl _, by decide⟩)] at hp
  exact absurd hp (by simp)

/-- The least fuel with which the growth loop ends is the number of passes
through its body; it is at most the fuel that is known to suffice. -/
theorem pool_grow_least (h : heap) (need : Nat) :
    ∀ (fuel : Nat) (p : pool),
      (need ≤ p.size ∨ (need ≤ 2 ^ 31 ∧ (2 ^ 31 ≤ p.size * 2 ^ fuel ∨ (p.size = 0 ∧ 20 ≤ fuel)))) →
      ∃ n p', n ≤ fuel ∧ pool_grow h need n p = some p' ∧ need ≤ p'.size ∧
        ∀ m, m < n → pool_grow h need m p = none := by
  intro fuel
  induction fuel with
  | zero =>
    intro p hp
    have hle : need ≤ p.size := by
      rcases hp with hp | ⟨h1, h2 | h2⟩ <;> omega
    exact ⟨0, p, le_refl _, pool_grow_done h need 0 p hle, hle, fun m hm => by omega⟩
  | succ fuel ih =>
    intro p hp
    by_cases hle : need ≤ p.size
    · exact ⟨0, p, by omega, pool_grow_done h need 0 p hle, hle, fun m hm => by omega⟩
    · have hstep : need ≤ (pool_grow_step h p).size ∨ (need ≤ 2 ^ 31 ∧
          (2 ^ 31 ≤ (pool_grow_step h p).size * 2 ^ fuel ∨
            ((pool_grow_step h p).size = 0 ∧ 20 ≤ fuel))) := by
        right
        rcases hp with hp | ⟨h1, h2⟩
        · omega
        · refine ⟨h1, Or.inl ?_⟩
          simp only [pool_grow_step, U32_eq]
          by_cases h0 : p.size = 0
          · rw [if_pos h0]
            rcases h2 with h2 | ⟨_, h2⟩
            · rw [h0] at h2; omega
            · calc 2 ^ 31 = 4096 * 2 ^ 19 := by norm_num
                _ ≤ 4096 * 2 ^ fuel := by
                  apply Nat.mul_le_mul_left
                  exact Nat.pow_le_pow_right (by norm_num) (by omega)
          · rw [if_neg h0]
            rcases h2 with h2 | ⟨h2, _⟩
            · rw [Nat.mod_eq_of_lt (by omega)]
              have e : p.size * 2 ^ (fuel + 1) = p.size * 2 * 2 ^ fuel := by ring
              rw [e] at h2
              exact h2
            · exact absurd h2 h0
      obtain ⟨n, p', hn, hg, hfit, hmin⟩ := ih (pool_grow_step h p) hstep
      refine ⟨n + 1, p', by omega, ?_, hfit, ?_⟩
      · unfold pool_grow
        rw [if_pos (by omega)]
        exact hg
      · intro m hm
        cases m with
        | zero => unfold pool_grow; rw [if_pos (by omega)]
        | succ k =>
          unfold pool_grow
          rw [if_pos (by omega)]
          exact hmin k (by omega)

/-- C18: for every pool, of any starting size, and every text `s` with
`fill + length(s) + 1` at most `2 ^ 31`, the `while` loop of `pool_push` ends
after `n` passes through its body for some `n ≤ 32` (it ends with fuel `n` and
with no less), and it ends with a size of at least `fill + length(s) + 1`. -/
theorem pool_grow_bounded (h : heap) (p : pool) (s : List Nat)
    (hr : p.fill + (strlen s + 1) ≤ 2 ^ 31) :
    ∃ n p', n ≤ 32 ∧ pool_grow h (p.fill + (strlen s + 1)) n p = some p' ∧
      p.fill + (strlen s + 1) ≤ p'.size ∧
      ∀ m, m < n → pool_grow h (p.fill + (strlen s + 1)) m p = none := by
  apply pool_grow_least
  right
  refine ⟨hr, ?_⟩
  by_cases h0 : p.size = 0
  · right; exact ⟨h0, by norm_num⟩
  · left
    calc 2 ^ 31 ≤ 1 * 2 ^ 32 := by norm_num
      _ ≤ p.size * 2 ^ 32 := Nat.mul_le_mul_right _ (by omega)

/-- Witness for C18: `dog` is pushed into the pool of the reloaded initial
document, whose size 9 is no power of two. -/
theorem pool_grow_bounded_witness :
    ∃ n p', n ≤ 32 ∧
      pool_grow heap0 (doc_loaded.pool.fill + (strlen dog + 1)) n doc_loaded.pool = some p' ∧
      doc_loaded.pool.fill + (strlen dog + 1) ≤ p'.size ∧
      ∀ m, m < n →
        pool_grow heap0 (doc_loaded.pool.fill + (strlen dog + 1)) m doc_loaded.pool = none :=
  pool_grow_bounded heap0 doc_loaded.pool dog
    (by
      have e : doc_loaded.pool.fill + (strlen dog + 1) = 13 := by decide
      rw [e]; norm_num)

/-! ## Splitting a Question -/

/-- Four bytes that were read as a little-endian value are the bytes that
value is written as. -/
theorem rd32_inv (bs rest : List Nat) (x : Nat) (hb : ∀ b ∈ bs, b < 256)
    (hx : rd32 bs = some (x, rest)) : bs = le32 x ++ rest ∧ ∀ b ∈ rest, b < 256 := by
  match bs, hx with
  | b0 :: b1 :: b2 :: b3 :: tl, hx =>
    simp only [rd32, Option.some.injEq, Prod.mk.injEq] at hx
    obtain ⟨hx1, hx2⟩ := hx
    subst hx2
    have h0 := hb b0 (by simp)
    have h1 := hb b1 (by simp)
    have h2 := hb b2 (by simp)
    have h3 := hb b3 (by simp)
    refine ⟨?_, fun b hbm => hb b (by simp [hbm])⟩
    simp only [le32, List.cons_append, List.nil_append, List.cons.injEq, and_true]
    subst hx1
    refine ⟨?_, ?_, ?_, ?_⟩ <;> omega

/-- The bytes that the loop of `db_load` consumed are the bytes that the loop
of `db_save` writes for the nodes it built; the nodes below the start index
are left alone. -/
theorem db_load_loop_inv :
    ∀ (k i : Nat) (nodes nodes' : Nat → node) (bs rest : List Nat) (d : db),
      (∀ b ∈ bs, b < 256) → db_load_loop k i nodes bs = some (nodes', rest) →
      d.nodes = nodes' →
      bs = db_save_loop d k i ++ rest ∧ (∀ b ∈ rest, b < 256) ∧
        ∀ j, j < i → nodes' j = nodes j := by
  intro k
  induction k with
  | zero =>
    intro i nodes nodes' bs rest d hb hl _
    simp only [db_load_loop, Option.some.injEq, Prod.mk.injEq] at hl
    obtain ⟨h1, h2⟩ := hl
    subst h1 h2
    exact ⟨by simp [db_save_loop], hb, fun _ _ => rfl⟩
  | succ k ih =>
    intro i nodes nodes' bs rest d hb hl hd
    cases bs with
    | nil => simp [db_load_loop] at hl
    | cons ty bs1 =>
      have hty : ty < 256 := hb ty (by simp)
      have hb1 : ∀ b ∈ bs1, b < 256 := fun b hbm => hb b (by simp [hbm])
      rw [db_load_loop] at hl
      cases h1 : rd32 bs1 with
      | none => rw [h1] at hl; exact absurd hl (by simp)
      | some r1 =>
        obtain ⟨text, bs2⟩ := r1
        rw [h1] at hl
        simp only at hl
        obtain ⟨e1, hb2⟩ := rd32_inv bs1 bs2 text hb1 h1
        by_cases hq : ty = QUESTION
        · rw [if_pos hq] at hl
          cases h2 : rd32 bs2 with
          | none => rw [h2] at hl; exact absurd hl (by simp)
          | some r2 =>
            obtain ⟨yes, bs3⟩ := r2
            rw [h2] at hl
            simp only at hl
            obtain ⟨e2, hb3⟩ := rd32_inv bs2 bs3 yes hb2 h2
            cases h3 : rd32 bs3 with
            | none => rw [h3] at hl; exact absurd hl (by simp)
            | some r3 =>
              obtain ⟨no, bs4⟩ := r3
              rw [h3] at hl
              simp only at hl
              obtain ⟨e3, hb4⟩ := rd32_inv bs3 bs4 no hb3 h3
              obtain ⟨f1, f2, f3⟩ := ih (i + 1) _ nodes' bs4 rest d hb4 hl hd
              have hni : d.nodes i = ⟨ty, text, yes, no⟩ := by
                rw [hd, f3 i (by omega), Function.update_same]
              refine ⟨?_, f2, ?_⟩
              · rw [db_save_loop, hni]
                simp only [save_node, if_pos hq, Nat.mod_eq_of_lt hty, List.append_assoc,
                  List.singleton_append, List.cons_append, List.nil_append]
                rw [e1, e2, e3, f1]
              · intro j hj
                rw [f3 j (by omega), Function.update_noteq (by omega)]
        · rw [if_neg hq] at hl
          obtain ⟨f1, f2, f3⟩ := ih (i + 1) _ nodes' bs2 rest d hb2 hl hd
          have hni : d.nodes i = ⟨ty, text, (nodes i).yes, (nodes i).no⟩ := by
            rw [hd, f3 i (by omega), Function.update_same]
          refine ⟨?_, f2, ?_⟩
          · rw [db_save_loop, hni]
            simp only [save_node, if_neg hq, Nat.mod_eq_of_lt hty, List.append_assoc,
              List.singleton_append, List.cons_append, List.nil_append]
            rw [e1, f1]
          · intro j hj
            rw [f3 j (by omega), Function.update_noteq (by omega)]

/-- The bytes that `pool_load` consumed, when it consumed them all, are the
bytes `pool_save` writes for the pool it built. -/
theorem pool_load_inv (h : heap) (bs : List Nat) (p : pool) (hb : ∀ b ∈ bs, b < 256)
    (hp : pool_load h bs = some (p, [])) : bs = pool_save p := by
  unfold pool_load at hp
  cases h1 : rd32 bs with
  | none => rw [h1] at hp; exact absurd hp (by simp)
  | some r1 =>
    obtain ⟨fill, bs1⟩ := r1
    rw [h1] at hp
    simp only at hp
    obtain ⟨e1, -⟩ := rd32_inv bs bs1 fill hb h1
    by_cases hle : fill ≤ bs1.length
    · rw [if_pos hle] at hp
      simp only [Option.some.injEq, Prod.mk.injEq] at hp
      obtain ⟨hp1, hp2⟩ := hp
      subst hp1
      have hlen : bs1.length = fill := by
        have := List.drop_eq_nil_iff.mp hp2
        omega
      unfold pool_save
      rw [e1]
      congr 1
      apply List.ext_getElem
      · simp [hlen]
      · intro n h1 h2
        simp only [List.getElem_map, List.getElem_range]
        rw [if_pos (by omega), List.getD_eq_getElem _ _ h1]
    · rw [if_neg hle] at hp
      exact absurd hp (by simp)

/-- C20: for every sequence of bytes `b` that `db_load` consumes completely,
`db_save` of the loaded document writes exactly `b`, whatever the kind bytes
are: a node whose kind byte is not 0 is read and written as a record of five
bytes. -/
theorem db_save_load (h : heap) (b : List Nat) (d : db) (hb : ∀ x ∈ b, x < 256)
    (hd : db_load h b = some (d, [])) : db_save d = b := by
  unfold db_load at hd
  cases h1 : rd32 b with
  | none => rw [h1] at hd; exact absurd hd (by simp)
  | some r1 =>
    obtain ⟨count, bs1⟩ := r1
    rw [h1] at hd
    simp only at hd
    obtain ⟨e1, hb1⟩ := rd32_inv b bs1 count hb h1
    cases h2 : db_load_loop count 0 h.cell bs1 with
    | none => rw [h2] at hd; exact absurd hd (by simp)
    | some r2 =>
      obtain ⟨nodes, bs2⟩ := r2
      rw [h2] at hd
      simp only at hd
      cases h3 : pool_load h bs2 with
      | none => rw [h3] at hd; exact absurd hd (by simp)
      | some r3 =>
        obtain ⟨p, bs3⟩ := r3
        rw [h3] at hd
        simp only [Option.some.injEq, Prod.mk.injEq] at hd
        obtain ⟨hd1, hd2⟩ := hd
        subst hd2
        obtain ⟨f1, f2, -⟩ := db_load_loop_inv count 0 h.cell nodes bs1 bs2 d hb1 h2
          (by rw [← hd1])
        have f3 := pool_load_inv h bs2 p f2 h3
        unfold db_save
        rw [e1, f1, f3, ← hd1, List.append_assoc]

/-- Witness for C20: a file of one node with the kind byte 7. -/
theorem db_save_load_witness :
    db_load heap0 file_kind7 = some (doc_kind7, []) ∧ (doc_kind7.nodes 0).type = 7 ∧
      db_save doc_kind7 = file_kind7 :=
  ⟨rfl, by decide, db_save_load heap0 file_kind7 doc_kind7 (by decide) rfl⟩

end AnimalDb
